import Mathlib

/-!
Verification development for the rustic_db storage core.

This file shallowly embeds the Rust sources (`types.rs`, `fields.rs`,
`tuple.rs`, `heap_page.rs`, `heap_file.rs`, `lock_manager.rs`,
`buffer_pool.rs`) as executable Lean definitions and proves properties of
them.  Machine integers are modelled as `Nat` (bytes are `Nat`s below 256;
`i32` values are represented by their 32-bit two's-complement bit pattern,
which is faithful for the equality-based properties proved here; `u64`
transaction ids are `Nat`).  Rust code that can panic (slice indexing out
of range, `unwrap` on `None`/`Err`) is modelled with `Option`/dedicated
result types whose `none`/`fatal` value marks the panic.
-/

set_option maxRecDepth 100000

namespace RusticDb

/-- `PAGE_SIZE` from `buffer_pool.rs`. -/
def PAGE_SIZE : Nat := 4096

/-- `STRING_SIZE` from `types.rs`. -/
def STRING_SIZE : Nat := 256

/-- Big-endian 4-byte encoding (`to_be_bytes` of a 32-bit value). -/
def toBe4 (n : Nat) : List Nat :=
  [n / 2 ^ 24 % 256, n / 2 ^ 16 % 256, n / 2 ^ 8 % 256, n % 256]

/-- Big-endian 4-byte decoding (`from_be_bytes`); the argument list must
have at least four elements (callers check this, mirroring the panic of
`copy_from_slice` on a short slice). -/
def fromBe4 (bs : List Nat) : Nat :=
  ((bs.getD 0 0 * 256 + bs.getD 1 0) * 256 + bs.getD 2 0) * 256 + bs.getD 3 0

/-- Is `b` a UTF-8 continuation byte (`0x80..=0xBF`)? -/
def isCont (b : Nat) : Bool := 0x80 ≤ b && b ≤ 0xBF

/-- UTF-8 validity of a byte sequence, exactly the check performed by
Rust's `String::from_utf8` (RFC 3629: no overlong forms, no surrogates,
no code points above U+10FFFF). -/
def validUtf8 : List Nat → Bool
  | [] => true
  | b :: rest =>
    if b ≤ 0x7F then validUtf8 rest
    else if 0xC2 ≤ b && b ≤ 0xDF then
      match rest with
      | b1 :: r => isCont b1 && validUtf8 r
      | [] => false
    else if b = 0xE0 then
      match rest with
      | b1 :: b2 :: r => (0xA0 ≤ b1 && b1 ≤ 0xBF) && isCont b2 && validUtf8 r
      | _ => false
    else if 0xE1 ≤ b && b ≤ 0xEC then
      match rest with
      | b1 :: b2 :: r => isCont b1 && isCont b2 && validUtf8 r
      | _ => false
    else if b = 0xED then
      match rest with
      | b1 :: b2 :: r => (0x80 ≤ b1 && b1 ≤ 0x9F) && isCont b2 && validUtf8 r
      | _ => false
    else if 0xEE ≤ b && b ≤ 0xEF then
      match rest with
      | b1 :: b2 :: r => isCont b1 && isCont b2 && validUtf8 r
      | _ => false
    else if b = 0xF0 then
      match rest with
      | b1 :: b2 :: b3 :: r => (0x90 ≤ b1 && b1 ≤ 0xBF) && isCont b2 && isCont b3 && validUtf8 r
      | _ => false
    else if 0xF1 ≤ b && b ≤ 0xF3 then
      match rest with
      | b1 :: b2 :: b3 :: r => isCont b1 && isCont b2 && isCont b3 && validUtf8 r
      | _ => false
    else if b = 0xF4 then
      match rest with
      | b1 :: b2 :: b3 :: r => (0x80 ≤ b1 && b1 ≤ 0x8F) && isCont b2 && isCont b3 && validUtf8 r
      | _ => false
    else false

/-- The Rust enum `Type` from `types.rs` (`Type` is reserved in Lean). -/
inductive Ty where
  | int
  | string
deriving DecidableEq, Repr

/-- `Type::get_len` from `types.rs`. -/
def Ty.get_len : Ty → Nat
  | .int => 4
  | .string => STRING_SIZE + 4

/-- `IntField` from `fields.rs`; `value` is the 32-bit two's-complement bit
pattern of the stored `i32` (a faithful representation up to the bijection
between `i32` values and their bit patterns). -/
structure IntField where
  value : Nat
deriving DecidableEq, Repr

/-- `StringField` from `fields.rs`; `value` is the UTF-8 byte content of
the Rust `String` and `len` the stored `u32` length prefix. -/
structure StringField where
  value : List Nat
  len : Nat
deriving DecidableEq, Repr

/-- `FieldVal` from `fields.rs`. -/
inductive FieldVal where
  | intField (f : IntField)
  | stringField (f : StringField)
deriving DecidableEq, Repr

/-- `IntField::serialize` (`to_be_bytes`). -/
def IntField.fserialize (f : IntField) : List Nat := toBe4 f.value

/-- `StringField::serialize`: 4-byte big-endian length prefix, then as many
string bytes as fit (`copy_len = min(len, STRING_SIZE)`), zero-padded to
`STRING_SIZE`. -/
def StringField.fserialize (f : StringField) : List Nat :=
  toBe4 f.len ++ f.value.take STRING_SIZE
    ++ List.replicate (STRING_SIZE - min f.value.length STRING_SIZE) 0

/-- Serialization of a `FieldVal` (the match in `Tuple::serialize`). -/
def FieldVal.fserialize : FieldVal → List Nat
  | .intField f => f.fserialize
  | .stringField f => f.fserialize

/-- Outcome of `Type::parse`: `ok` mirrors `Ok(..)`, `err` mirrors
`Err(..)` (never produced by the source), `fatal` marks a panic (slice
index out of range in `bytes[..4]` / `bytes[4..len+4]`, or the `unwrap`
of `String::from_utf8` on invalid UTF-8). -/
inductive ParseRes where
  | ok (v : FieldVal)
  | err
  | fatal
deriving DecidableEq, Repr

/-- `Type::parse` from `types.rs`.  For `IntType` it reads 4 big-endian
bytes.  For `StringType` it reads a 4-byte big-endian length `len`, slices
`bytes[4..len+4]` (panicking when the slice is out of range — `len` is not
clamped to `STRING_SIZE`), and unwraps `String::from_utf8` (panicking on
invalid UTF-8). -/
def Ty.parse : Ty → List Nat → ParseRes
  | .int, bytes =>
    if bytes.length < 4 then .fatal
    else .ok (.intField ⟨fromBe4 bytes⟩)
  | .string, bytes =>
    if bytes.length < 4 then .fatal
    else
      let len := fromBe4 bytes
      if bytes.length < len + 4 then .fatal
      else
        let payload := (bytes.drop 4).take len
        if validUtf8 payload then .ok (.stringField ⟨payload, len⟩)
        else .fatal

/-- `Type::parse` collapsed to `Option`; both `Err` results and panics
become `none` (every caller in the source unwraps the `Result`, so both
end the computation). -/
def Ty.parseOpt (t : Ty) (bytes : List Nat) : Option FieldVal :=
  match t.parse bytes with
  | .ok v => some v
  | _ => none

/-- `HeapPageId` from `heap_page.rs`. -/
structure HeapPageId where
  table_id : Nat
  page_number : Nat
deriving DecidableEq, Repr

/-- `Permission` from `heap_page.rs`. -/
inductive Permission where
  | read
  | write
deriving DecidableEq, Repr

/-- `RecordId` from `tuple.rs`. -/
structure RecordId where
  pid : HeapPageId
  tuple_no : Nat
deriving DecidableEq, Repr

/-- `TupleDesc` from `tuple.rs`. -/
structure TupleDesc where
  types : List Ty
  fields : List String
deriving DecidableEq, Repr

/-- `TupleDesc::get_size`. -/
def TupleDesc.get_size (td : TupleDesc) : Nat :=
  td.types.foldl (fun acc t => acc + t.get_len) 0

/-- `Tuple` from `tuple.rs`. -/
structure Tuple where
  fields : List FieldVal
  td : TupleDesc
  rid : RecordId
deriving DecidableEq, Repr

/-- `Tuple::new`: the record id is initialized to the sentinel
`RecordId::new(HeapPageId::new(0, 0), 0)`. -/
def Tuple.new (fields : List FieldVal) (td : TupleDesc) : Tuple :=
  ⟨fields, td, ⟨⟨0, 0⟩, 0⟩⟩

/-- The field-serialization loop of `Tuple::serialize`. -/
def serializeFields : List FieldVal → List Nat
  | [] => []
  | f :: fs => f.fserialize ++ serializeFields fs

/-- `Tuple::serialize`. -/
def Tuple.serialize (t : Tuple) : List Nat := serializeFields t.fields

/-- The parsing loop of `Tuple::deserialize`: parse each type at its
offset into `bytes`; advancing the offset by `t.get_len` is rendered as
dropping `t.get_len` bytes before the recursive call. -/
def parseFields : List Ty → List Nat → Option (List FieldVal)
  | [], _ => some []
  | t :: ts, bytes =>
    match t.parseOpt bytes with
    | none => none
    | some f =>
      match parseFields ts (bytes.drop t.get_len) with
      | none => none
      | some fs => some (f :: fs)

/-- `Tuple::deserialize` (panics inside `parse`/`unwrap` become `none`). -/
def Tuple.deserialize (bytes : List Nat) (td : TupleDesc) : Option Tuple :=
  (parseFields td.types bytes).map fun fs => Tuple.new fs td

/-- `HeapPage` from `heap_page.rs`; `dirtied_by` stores the transaction id
(`u64`, modelled as `Nat`). -/
structure HeapPage where
  pid : HeapPageId
  td : TupleDesc
  header_size : Nat
  header : List Nat
  tuples : List Tuple
  num_slots : Nat
  old_data : List Nat
  dirtied_by : Option Nat
deriving DecidableEq, Repr

/-- `HeapPage::get_slot`: test bit `i % 8` of header byte `i / 8`,
returning `false` when the byte index is out of range. -/
def get_slot (header : List Nat) (i : Nat) : Bool :=
  let idx := i / 8
  let bit := i % 8
  if header.length ≤ idx then false
  else Nat.testBit (header.getD idx 0) bit

/-- `HeapPage::set_slot`: set or clear bit `i % 8` of header byte `i / 8`
(`byte | mask` resp. `byte & !mask`; `!mask` on a `u8` is `255 ^^^ mask`).
The source indexes `header[idx]`, which panics when `idx` is out of range;
all call sites guarantee `idx < header.len()` and `List.set` is the
identity there, so the panic is unreachable. -/
def set_slot (header : List Nat) (i : Nat) (value : Bool) : List Nat :=
  let idx := i / 8
  let bit := i % 8
  let byte := header.getD idx 0
  if value then header.set idx (byte ||| 2 ^ bit)
  else header.set idx (byte &&& (255 ^^^ 2 ^ bit))

/-- The slot-decoding loop of `HeapPage::new`, over the index list
`List.range num_slots`: an occupied slot is deserialized from
`data[header_size + i*size .. header_size + (i+1)*size]` (out-of-range
slicing panics, modelled as `none`); a free slot yields the sentinel
`Tuple::new(vec![], td)`. -/
def decodeSlots (data header : List Nat) (hsz sz : Nat) (td : TupleDesc) :
    List Nat → Option (List Tuple)
  | [] => some []
  | i :: is =>
    if get_slot header i then
      if data.length < hsz + i * sz + sz then none
      else
        match Tuple.deserialize ((data.drop (hsz + i * sz)).take sz) td,
            decodeSlots data header hsz sz td is with
        | some t, some ts => some (t :: ts)
        | _, _ => none
    else
      match decodeSlots data header hsz sz td is with
      | some ts => some (Tuple.new [] td :: ts)
      | none => none

/-- `HeapPage::new` (the page decoder).  `num_slots` and `header_size` are
computed as in the source (`(num_slots as f64 / 8.0).ceil()` is exact and
equals `(num_slots + 7) / 8`); `old_data` is initialized to `PAGE_SIZE`
zero bytes; `data[..header_size]` panics (`none`) if `data` is shorter
than the header. -/
def HeapPage.new (pid : HeapPageId) (data : List Nat) (td : TupleDesc) :
    Option HeapPage :=
  let num_slots := PAGE_SIZE * 8 / (td.get_size * 8 + 1)
  let old_data := List.replicate PAGE_SIZE 0
  let header_size := (num_slots + 7) / 8
  if data.length < header_size then none
  else
    let header := data.take header_size
    match decodeSlots data header header_size td.get_size td (List.range num_slots) with
    | none => none
    | some tuples =>
      some ⟨pid, td, header_size, header, tuples, num_slots, old_data, none⟩

/-- The slot-serialization loop of `HeapPage::get_page_data`; the source
indexes `self.tuples[i]`, in range for every page built by this
development (`tuples.length = num_slots`), rendered as `getD`. -/
def slotBytes (p : HeapPage) : List Nat → List Nat
  | [] => []
  | i :: is =>
    (if get_slot p.header i then (p.tuples.getD i (Tuple.new [] p.td)).serialize
     else List.replicate p.td.get_size 0) ++ slotBytes p is

/-- `HeapPage::get_page_data` (the page encoder): header, then each slot's
bytes, then zero padding to `PAGE_SIZE`. -/
def HeapPage.get_page_data (p : HeapPage) : List Nat :=
  let data := p.header ++ slotBytes p (List.range p.num_slots)
  data ++ List.replicate (PAGE_SIZE - data.length) 0

/-- `HeapPage::get_before_image`: decode the page's `old_data` snapshot
(`HeapPage::new(self.pid, self.old_data.clone(), self.td.clone())`). -/
def HeapPage.get_before_image (p : HeapPage) : Option HeapPage :=
  HeapPage.new p.pid p.old_data p.td

/-- `HeapPage::set_before_image`. -/
def HeapPage.set_before_image (p : HeapPage) : HeapPage :=
  { p with old_data := p.get_page_data }

/-- `HeapPage::mark_dirty`. -/
def HeapPage.mark_dirty (p : HeapPage) (dirty : Bool) (tid : Nat) : HeapPage :=
  if dirty then { p with dirtied_by := some tid } else { p with dirtied_by := none }

/-- `HeapPage::is_dirty`. -/
def HeapPage.is_dirty (p : HeapPage) : Bool := p.dirtied_by.isSome

/-- `HeapPage::get_num_empty_slots`. -/
def HeapPage.get_num_empty_slots (p : HeapPage) : Nat :=
  ((List.range p.num_slots).filter fun i => !get_slot p.header i).length

/-- Result of `HeapPage::delete_tuple`: `ok` carries the updated page,
`notOnPage` mirrors `Err("Tuple not on this page")` (the page is
unchanged), `fatal` marks the panic of `self.tuples[tuple_no] = ..` when
`tuple_no` is outside the tuple vector. -/
inductive DeleteRes where
  | ok (p : HeapPage)
  | notOnPage
  | fatal
deriving DecidableEq, Repr

/-- `HeapPage::delete_tuple`. -/
def HeapPage.delete_tuple (p : HeapPage) (t : Tuple) : DeleteRes :=
  let rid := t.rid
  let tuple_no := rid.tuple_no
  if rid.pid ≠ p.pid then .notOnPage
  else if !get_slot p.header tuple_no then .notOnPage
  else if p.tuples.length ≤ tuple_no then .fatal
  else .ok { p with
    tuples := p.tuples.set tuple_no (Tuple.new [] p.td),
    header := set_slot p.header tuple_no false }

/-- The first-free-slot search of `HeapPage::add_tuple`. -/
def findFreeSlot (header : List Nat) : List Nat → Option Nat
  | [] => none
  | i :: is => if !get_slot header i then some i else findFreeSlot header is

/-- `HeapPage::add_tuple`: place the tuple in the first free slot and set
its header bit, or fail with `Err("No empty slots")` (`none`). -/
def HeapPage.add_tuple (p : HeapPage) (t : Tuple) : Option HeapPage :=
  match findFreeSlot p.header (List.range p.num_slots) with
  | none => none
  | some i => some { p with
      tuples := p.tuples.set i t,
      header := set_slot p.header i true }

/-- One `seek(SeekFrom::Start(pos))` followed by `write_all(data)` on a
file of bytes: seeking past the end zero-fills the gap, and the write
overwrites in place / extends at the end. -/
def writeAt (file : List Nat) (pos : Nat) (data : List Nat) : List Nat :=
  (file ++ List.replicate (pos - file.length) 0).take pos
    ++ data ++ file.drop (pos + data.length)

/-- `ceil(file_length / PAGE_SIZE)` as computed (exactly, via `f64`) in
`HeapFile::read_page` and `HeapFile::num_pages`. -/
def ceilPages (len : Nat) : Nat := (len + PAGE_SIZE - 1) / PAGE_SIZE

/-- The file-extension loop of `HeapFile::read_page`: while
`num_pages <= page_no`, write a zero page at offset
`num_pages * PAGE_SIZE` and increment `num_pages`. -/
def extendFile (file : List Nat) (num_pages page_no : Nat) : List Nat :=
  if num_pages ≤ page_no then
    extendFile (writeAt file (num_pages * PAGE_SIZE) (List.replicate PAGE_SIZE 0))
      (num_pages + 1) page_no
  else file
termination_by page_no + 1 - num_pages
decreasing_by omega

/-- `HeapFile` from `heap_file.rs`: the backing file's byte content plus
the table's tuple descriptor (the random table id lives in the catalog
index of `Sys`). -/
structure HeapFile where
  file : List Nat
  td : TupleDesc
deriving DecidableEq, Repr

/-- `HeapFile::read_page`: extend the file up to and including `page_no`
with zero pages if needed, then read exactly `PAGE_SIZE` bytes at
`page_no * PAGE_SIZE` and decode them (`read_exact` on a too-short file
fails and is unwrapped, modelled as `none`). -/
def HeapFile.read_page (hf : HeapFile) (pid : HeapPageId) : HeapFile × Option HeapPage :=
  let num_pages := ceilPages hf.file.length
  let page_no := pid.page_number
  let file := extendFile hf.file num_pages page_no
  if file.length < page_no * PAGE_SIZE + PAGE_SIZE then ({ hf with file := file }, none)
  else
    ({ hf with file := file },
      HeapPage.new pid ((file.drop (page_no * PAGE_SIZE)).take PAGE_SIZE) hf.td)

/-- `HeapFile::write_page`: seek to `page_number * PAGE_SIZE` and write
the page's encoding. -/
def HeapFile.write_page (hf : HeapFile) (p : HeapPage) : HeapFile :=
  { hf with file := writeAt hf.file (p.pid.page_number * PAGE_SIZE) p.get_page_data }

/-- `Lock` from `lock_manager.rs` (`tid` is the `u64` transaction id). -/
structure Lock where
  tid : Nat
  pid : HeapPageId
  exclusive : Bool
deriving DecidableEq, Repr

/-- The `page_to_locks` index restricted to one page.  The lock manager
keeps two mutually consistent indexes (`page_to_locks` and
`transaction_to_locks`); the model stores the one underlying set of locks
as a list and derives both views. -/
def pageLocks (locks : List Lock) (pid : HeapPageId) : List Lock :=
  locks.filter fun l => l.pid == pid

/-- The `transaction_to_locks` index restricted to one transaction. -/
def txnLocks (locks : List Lock) (tid : Nat) : List Lock :=
  locks.filter fun l => l.tid == tid

/-- `LockManager::upgrade_lock`: remove the shared lock
`(tid, pid, false)` and insert `(tid, pid, true)` in both indexes. -/
def upgrade_lock (locks : List Lock) (tid : Nat) (pid : HeapPageId) : List Lock :=
  (locks.filter fun l => l != ⟨tid, pid, false⟩) ++ [⟨tid, pid, true⟩]

/-- `LockManager::release_locks`: drop every lock held by `tid` from both
indexes. -/
def release_locks (locks : List Lock) (tid : Nat) : List Lock :=
  locks.filter fun l => l.tid != tid

/-- `LockManager::get_locked_pages` (a `HashSet`, so deduplicated). -/
def get_locked_pages (locks : List Lock) (tid : Nat) : List HeapPageId :=
  ((txnLocks locks tid).map (·.pid)).dedup

/-- Outcome of one pass through `LockManager::acquire_lock`:
`alreadyHeld` is the early return (the transaction already holds a
suitable lock), `granted` carries the updated lock table (fresh grant or
upgrade), `waits` is the conflict branch that sleeps 500 ms and retries,
`dies` is the WAIT-DIE branch that aborts the requester through the
buffer pool and then raises the fatal `Transaction aborted` panic. -/
inductive LockDecision where
  | alreadyHeld
  | granted (locks : List Lock)
  | waits
  | dies
deriving DecidableEq, Repr

/-- `LockManager::acquire_lock` (one pass of its retry loop). -/
def acquireDecision (locks : List Lock) (tid : Nat) (pid : HeapPageId)
    (exclusive : Bool) : LockDecision :=
  -- early return if the transaction already has the appropriate lock
  if (txnLocks locks tid).any (fun l => l.pid == pid && (l.exclusive == exclusive || !exclusive)) then
    .alreadyHeld
  else
    let page_locks := pageLocks locks pid
    if page_locks.isEmpty then .granted (locks ++ [⟨tid, pid, exclusive⟩])
    else if page_locks.length == 1 && (page_locks.headD ⟨0, ⟨0, 0⟩, false⟩).tid == tid then
      -- upgrade the lock if the transaction already has a lock on the page
      if exclusive then .granted (upgrade_lock locks tid pid) else .alreadyHeld
    else
      -- conflict if there are other locks when we want an exclusive lock,
      -- or if there is an exclusive lock and we want any lock
      let conflict := (exclusive && !page_locks.isEmpty) || page_locks.any (·.exclusive)
      if conflict then
        if page_locks.any (fun l => decide (l.tid < tid)) then .dies else .waits
      else .granted (locks ++ [⟨tid, pid, exclusive⟩])

/-- Combined system state: the buffer pool's page cache (`id_to_page`),
the lock manager's lock set, and the catalog's `table_id → HeapFile`
index together with each table's on-disk bytes. -/
structure Sys where
  cache : List (HeapPageId × HeapPage)
  locks : List Lock
  tables : List (Nat × HeapFile)
deriving Repr

/-- `HashMap::get`: the value bound to `k`, if any. -/
def lookupAssoc {α β : Type} [BEq α] (m : List (α × β)) (k : α) : Option β :=
  match m with
  | [] => none
  | e :: es => if e.1 == k then some e.2 else lookupAssoc es k

/-- `HashMap::insert`: replace any existing binding of the key. -/
def insertAssoc {α β : Type} [BEq α] (m : List (α × β)) (k : α) (v : β) :
    List (α × β) :=
  (k, v) :: m.filter fun e => e.1 != k

/-- The per-page body of `BufferPool::abort_transaction`: if the page is
cached and dirty, replace it with its before-image (`get_before_image`,
whose inner decode can panic, modelled as `none`) and clear the dirty
flag. -/
def abortStep (tid : Nat) (st : Sys) (pid : HeapPageId) : Option Sys :=
  match lookupAssoc st.cache pid with
  | none => some st
  | some page =>
    if page.is_dirty then
      match page.get_before_image with
      | none => none
      | some before =>
        some { st with cache := insertAssoc st.cache pid (before.mark_dirty false tid) }
    else some st

/-- `BufferPool::abort_transaction`: revert every dirty cached page locked
by `tid` to its before-image, then release all of `tid`'s locks. -/
def BufferPool.abort_transaction (s : Sys) (tid : Nat) : Option Sys :=
  match (get_locked_pages s.locks tid).foldlM (abortStep tid) s with
  | none => none
  | some st => some { st with locks := release_locks st.locks tid }

/-- The per-page body of `BufferPool::commit_transaction`: if the page is
cached and dirty, write it through the heap file (the catalog `unwrap`
panics, `none`, when the table id is unregistered), clear the dirty flag,
and snapshot the new before-image. -/
def commitStep (tid : Nat) (st : Sys) (pid : HeapPageId) : Option Sys :=
  match lookupAssoc st.cache pid with
  | none => some st
  | some page =>
    if page.is_dirty then
      match lookupAssoc st.tables pid.table_id with
      | none => none
      | some hf =>
        some { st with
          cache := insertAssoc st.cache pid ((page.mark_dirty false tid).set_before_image),
          tables := insertAssoc st.tables pid.table_id (hf.write_page page) }
    else some st

/-- `BufferPool::commit_transaction`: write through every dirty cached
page locked by `tid`, then release all of `tid`'s locks. -/
def BufferPool.commit_transaction (s : Sys) (tid : Nat) : Option Sys :=
  match (get_locked_pages s.locks tid).foldlM (commitStep tid) s with
  | none => none
  | some st => some { st with locks := release_locks st.locks tid }

/-- Outcome of `acquire_lock` at the system level: `ok` returns normally
with the updated state; `waits` blocks in the bounded-sleep retry loop;
`dies` first runs `BufferPool::abort_transaction(tid)` (whose completed
result it carries) and then raises the fatal `Transaction aborted`
panic. -/
inductive SysAcquireRes where
  | ok (s : Sys)
  | waits
  | dies (afterAbort : Option Sys)
deriving Repr

/-- `LockManager::acquire_lock` including the die branch's call into the
buffer pool. -/
def sysAcquire (s : Sys) (tid : Nat) (pid : HeapPageId) (exclusive : Bool) :
    SysAcquireRes :=
  match acquireDecision s.locks tid pid exclusive with
  | .alreadyHeld => .ok s
  | .granted ls => .ok { s with locks := ls }
  | .waits => .waits
  | .dies => .dies (BufferPool.abort_transaction s tid)

/-- `BufferPool::get_page`.  The outer `Option` marks the ways the call
fails to return normally (the acquire loop waiting forever, the WAIT-DIE
abort, the catalog `unwrap` on an unregistered table id, or a page-decode
panic); the inner `Option` is the function's declared
`Option<Arc<RwLock<HeapPage>>>` return value. -/
def BufferPool.get_page (s : Sys) (tid : Nat) (pid : HeapPageId)
    (perm : Permission) : Option (Option HeapPage × Sys) :=
  match sysAcquire s tid pid (perm == .write) with
  | .waits => none
  | .dies _ => none
  | .ok s =>
    match lookupAssoc s.cache pid with
    | some page => some (some page, s)
    | none =>
      match lookupAssoc s.tables pid.table_id with
      | none => none
      | some hf =>
        match hf.read_page pid with
        | (_, none) => none
        | (hf', some page) =>
          some (some page, { s with
            cache := insertAssoc s.cache pid page,
            tables := insertAssoc s.tables pid.table_id hf' })

/-! ### Lock-manager properties -/

/-- A lock held on a page conflicts with a request by transaction `tid`
for the given mode: it belongs to another transaction, and either the
request is exclusive or the held lock is. -/
def conflictsWith (l : Lock) (tid : Nat) (exclusive : Bool) : Prop :=
  l.tid ≠ tid ∧ (exclusive = true ∨ l.exclusive = true)

instance (l : Lock) (tid : Nat) (exclusive : Bool) :
    Decidable (conflictsWith l tid exclusive) := by
  unfold conflictsWith; infer_instance

/-- State invariant of the lock manager: an exclusive lock is the only
lock on its page.  It holds in every reachable lock table, because an
exclusive lock is only granted when the page has no other holder (fresh
grant on an empty holder set, or upgrade of the sole holder), and is only
removed together with the rest of its transaction's locks. -/
def ExclusiveHoldersAlone (locks : List Lock) : Prop :=
  ∀ l ∈ locks, l.exclusive = true → ∀ l' ∈ locks, l'.pid = l.pid → l' = l

instance (locks : List Lock) : Decidable (ExclusiveHoldersAlone locks) := by
  unfold ExclusiveHoldersAlone; infer_instance

theorem mem_pageLocks {locks : List Lock} {pid : HeapPageId} {l : Lock} :
    l ∈ pageLocks locks pid ↔ l ∈ locks ∧ l.pid = pid := by
  simp [pageLocks]

theorem mem_txnLocks {locks : List Lock} {tid : Nat} {l : Lock} :
    l ∈ txnLocks locks tid ↔ l ∈ locks ∧ l.tid = tid := by
  simp [txnLocks]

/-- Core WAIT-DIE dichotomy of `acquire_lock`: on a genuinely conflicting
request (in a state satisfying the exclusive-singleton invariant) the
decision is `dies` exactly when some conflicting holder is older
(strictly smaller tid) than the requester, and otherwise `waits`. -/
theorem acquireDecision_conflict_spec (locks : List Lock) (tid : Nat)
    (pid : HeapPageId) (exclusive : Bool)
    (hInv : ExclusiveHoldersAlone locks)
    (hConf : ∃ l ∈ pageLocks locks pid, conflictsWith l tid exclusive) :
    (acquireDecision locks tid pid exclusive = .dies
        ↔ ∃ l ∈ pageLocks locks pid, conflictsWith l tid exclusive ∧ l.tid < tid)
      ∧ (acquireDecision locks tid pid exclusive = .dies
          ∨ acquireDecision locks tid pid exclusive = .waits) := by
  obtain ⟨l₀, hl₀m, hl₀c⟩ := hConf
  obtain ⟨hl₀mem, hl₀pid⟩ := mem_pageLocks.mp hl₀m
  obtain ⟨hl₀tid, hl₀x⟩ := hl₀c
  -- the early-return test fails: the requester holds no suitable lock
  have hfast : ((txnLocks locks tid).any fun l =>
      l.pid == pid && (l.exclusive == exclusive || !exclusive)) = false := by
    rw [List.any_eq_false]
    intro l hlm hl
    obtain ⟨hlmem, hltid⟩ := mem_txnLocks.mp hlm
    simp only [Bool.and_eq_true, beq_iff_eq, Bool.or_eq_true, Bool.not_eq_true'] at hl
    obtain ⟨hlpid, hca⟩ := hl
    rcases hca with hx | hexf
    · by_cases het : exclusive = true
      · have hxl : l.exclusive = true := hx.trans het
        have heq : l₀ = l := hInv l hlmem hxl l₀ hl₀mem (hl₀pid.trans hlpid.symm)
        exact hl₀tid (by rw [heq, hltid])
      · have hx₀ : l₀.exclusive = true := hl₀x.resolve_left het
        have heq : l = l₀ := hInv l₀ hl₀mem hx₀ l hlmem (hlpid.trans hl₀pid.symm)
        exact hl₀tid (by rw [← heq, hltid])
    · have hx₀ : l₀.exclusive = true := hl₀x.resolve_left (by simp [hexf])
      have heq : l = l₀ := hInv l₀ hl₀mem hx₀ l hlmem (hlpid.trans hl₀pid.symm)
      exact hl₀tid (by rw [← heq, hltid])
  -- the page's holder set is nonempty
  have hne : (pageLocks locks pid).isEmpty = false := by
    rcases h : pageLocks locks pid with _ | ⟨a, as⟩
    · rw [h] at hl₀m; cases hl₀m
    · rfl
  -- the upgrade branch does not apply
  have hupg : ((pageLocks locks pid).length == 1
      && ((pageLocks locks pid).headD ⟨0, ⟨0, 0⟩, false⟩).tid == tid) = false := by
    by_contra hb
    rw [Bool.not_eq_false, Bool.and_eq_true, beq_iff_eq, beq_iff_eq] at hb
    obtain ⟨hlen, htid⟩ := hb
    obtain ⟨x, hx⟩ := List.length_eq_one.mp hlen
    rw [hx] at hl₀m htid
    have : l₀ = x := by simpa using hl₀m
    exact hl₀tid (by rw [this]; simpa using htid)
  -- the conflict flag is set
  have hcon : (exclusive || (pageLocks locks pid).any (·.exclusive)) = true := by
    by_cases het : exclusive = true
    · simp [het]
    · rw [Bool.or_eq_true]
      exact Or.inr (List.any_eq_true.mpr ⟨l₀, hl₀m, hl₀x.resolve_left het⟩)
  have hdec : acquireDecision locks tid pid exclusive =
      (if (pageLocks locks pid).any (fun l => decide (l.tid < tid)) then .dies
       else .waits) := by
    simp only [acquireDecision, hfast, hne, hupg, Bool.not_false, Bool.and_true, hcon,
      Bool.false_eq_true, if_false, if_true]
  constructor
  · rw [hdec]
    by_cases hany : ((pageLocks locks pid).any fun l => decide (l.tid < tid)) = true
    · rw [if_pos hany]
      simp only [true_iff, iff_true]
      obtain ⟨l, hlm, hlt⟩ := List.any_eq_true.mp hany
      rw [decide_eq_true_eq] at hlt
      refine ⟨l, hlm, ⟨Nat.ne_of_lt hlt, ?_⟩, hlt⟩
      by_cases he : exclusive = true
      · exact Or.inl he
      · have hx₀ : l₀.exclusive = true := hl₀x.resolve_left he
        have : l = l₀ := hInv l₀ hl₀mem hx₀ l (mem_pageLocks.mp hlm).1
          (((mem_pageLocks.mp hlm).2).trans hl₀pid.symm)
        exact Or.inr (by rw [this]; exact hx₀)
    · rw [if_neg hany]
      constructor
      · intro h; cases h
      · rintro ⟨l, hlm, _, hlt⟩
        exact absurd (List.any_eq_true.mpr ⟨l, hlm, decide_eq_true hlt⟩) hany
  · rw [hdec]
    by_cases hany : ((pageLocks locks pid).any fun l => decide (l.tid < tid)) = true
    · exact Or.inl (by rw [if_pos hany])
    · exact Or.inr (by rw [if_neg hany])

/-- C3: on a conflicting `acquire_lock(tid, pid, mode)` request (in a
lock table satisfying the exclusive-singleton invariant of reachable
states), the requester dies — `BufferPool::abort_transaction(tid)`
completes and the fatal `Transaction aborted` panic is raised — if and
only if some conflicting holder of `pid` has a strictly smaller tid than
the requester; otherwise the call waits (bounded sleep and retry). -/
theorem acquire_conflict_dies_iff_older_holder (s : Sys) (tid : Nat)
    (pid : HeapPageId) (exclusive : Bool)
    (hInv : ExclusiveHoldersAlone s.locks)
    (hConf : ∃ l ∈ pageLocks s.locks pid, conflictsWith l tid exclusive) :
    (sysAcquire s tid pid exclusive = .dies (BufferPool.abort_transaction s tid)
        ↔ ∃ l ∈ pageLocks s.locks pid, conflictsWith l tid exclusive ∧ l.tid < tid)
      ∧ ((¬ ∃ l ∈ pageLocks s.locks pid, conflictsWith l tid exclusive ∧ l.tid < tid)
          → sysAcquire s tid pid exclusive = .waits) := by
  obtain ⟨hiff, hdw⟩ := acquireDecision_conflict_spec s.locks tid pid exclusive hInv hConf
  rcases hdw with hd | hw
  · constructor
    · rw [iff_true_intro (hiff.mp hd)]
      simp [sysAcquire, hd]
    · intro hno
      exact absurd (hiff.mp hd) hno
  · have hnot : ¬ ∃ l ∈ pageLocks s.locks pid, conflictsWith l tid exclusive ∧ l.tid < tid := by
      intro hex
      rw [← hiff] at hex
      rw [hw] at hex
      cases hex
    constructor
    · rw [iff_false_intro hnot]
      simp [sysAcquire, hw]
    · intro _
      simp [sysAcquire, hw]

/-- Witness for C3 at a concrete input: transaction 3 requests a shared
lock on a page exclusively held by the older transaction 1, and dies. -/
theorem acquire_conflict_dies_iff_older_holder_witness :
    sysAcquire ⟨[], [⟨1, ⟨0, 0⟩, true⟩], []⟩ 3 ⟨0, 0⟩ false
      = .dies (BufferPool.abort_transaction ⟨[], [⟨1, ⟨0, 0⟩, true⟩], []⟩ 3) :=
  (acquire_conflict_dies_iff_older_holder ⟨[], [⟨1, ⟨0, 0⟩, true⟩], []⟩ 3 ⟨0, 0⟩ false
    (by decide) ⟨⟨1, ⟨0, 0⟩, true⟩, by decide, by decide⟩).1.mpr
    ⟨⟨1, ⟨0, 0⟩, true⟩, by decide, by decide, by decide⟩

/-- Counterexample to C4 as stated: transaction 3 requests a shared lock
on a page exclusively held by transaction 5; the request waits, yet the
(unique) conflicting holder has tid 5, which is strictly larger than the
waiter's tid 3 — not strictly smaller as the claim requires. -/
theorem acquire_waits_older_holder_cex :
    acquireDecision [⟨5, ⟨0, 0⟩, true⟩] 3 ⟨0, 0⟩ false = .waits
      ∧ (⟨5, ⟨0, 0⟩, true⟩ : Lock) ∈ pageLocks [⟨5, ⟨0, 0⟩, true⟩] ⟨0, 0⟩
      ∧ conflictsWith ⟨5, ⟨0, 0⟩, true⟩ 3 false
      ∧ ¬ ((5 : Nat) < 3) :=
  ⟨by decide, by decide, by decide, by decide⟩

/-- C4 (amended): whenever `acquire_lock` waits, no conflicting holder of
the requested page has a strictly smaller tid than the waiter (the die
check `locks.iter().any(|lock| lock.tid < tid)` returned false). -/
theorem acquire_waits_no_older_holder (locks : List Lock) (tid : Nat)
    (pid : HeapPageId) (exclusive : Bool)
    (h : acquireDecision locks tid pid exclusive = .waits) :
    ∀ l ∈ pageLocks locks pid, conflictsWith l tid exclusive → tid ≤ l.tid := by
  intro l hlm _
  by_contra hlt
  rw [not_le] at hlt
  have hany : ((pageLocks locks pid).any fun l => decide (l.tid < tid)) = true :=
    List.any_eq_true.mpr ⟨l, hlm, decide_eq_true hlt⟩
  simp only [acquireDecision, hany] at h
  repeat' split at h
  all_goals simp_all

/-- Witness for C4's amended theorem: transaction 3's shared request on a
page exclusively held by transaction 5 waits, so the theorem yields
`3 ≤ 5` for that holder. -/
theorem acquire_waits_no_older_holder_witness :
    (3 : Nat) ≤ (5 : Nat) :=
  acquire_waits_no_older_holder [⟨5, ⟨0, 0⟩, true⟩] 3 ⟨0, 0⟩ false (by decide)
    ⟨5, ⟨0, 0⟩, true⟩ (by decide) (by decide)

/-! ### String decoding (C8) -/

/-- C8 (code bug): `Type::parse` of a `StringType` panics — it does not
return a `DecodeError` result — when the declared length exceeds the
available payload (the length is not clamped to `STRING_SIZE`), and also
when the sliced payload is not valid UTF-8 (`String::from_utf8(..)
.unwrap()`).  First conjunct: declared length 1, payload byte `0xFF`
(invalid UTF-8) panics.  Second conjunct: declared length 300 with a
260-byte field region panics on the out-of-range slice.  Third conjunct:
no input whatsoever produces an `Err` result. -/
theorem string_parse_panics_not_err :
    Ty.parse .string [0, 0, 0, 1, 0xFF] = .fatal
      ∧ Ty.parse .string ([0, 0, 1, 44] ++ List.replicate 256 0) = .fatal
      ∧ ∀ bytes, Ty.parse .string bytes ≠ .err := by
  refine ⟨by decide, by decide, ?_⟩
  intro bytes
  simp only [Ty.parse]
  split
  · simp
  · split
    · simp
    · split <;> simp

/-! ### Buffer-pool `get_page` (C10) -/

/-- C10: whenever `BufferPool::get_page` returns (its outer `Option` is
`some`, i.e. it neither blocks, nor dies, nor panics), the returned value
of its declared `Option` type is `Some`: both `return` statements in the
source wrap their result in `Some(..)`, so `None` is never returned. -/
theorem get_page_returns_some (s : Sys) (tid : Nat) (pid : HeapPageId)
    (perm : Permission) (r : Option HeapPage) (s' : Sys)
    (h : BufferPool.get_page s tid pid perm = some (r, s')) : r.isSome := by
  unfold BufferPool.get_page at h
  repeat' split at h
  all_goals (try exact Option.noConfusion h)
  all_goals (rw [Option.some.injEq, Prod.mk.injEq] at h; rw [← h.1]; rfl)

/-- A trivial page value used by concrete examples. -/
def pg0 : HeapPage := ⟨⟨0, 0⟩, ⟨[], []⟩, 0, [], [], 0, [], none⟩

/-- A one-entry cache state used by concrete examples. -/
def sys0 : Sys := ⟨[(⟨0, 0⟩, pg0)], [], []⟩

/-- Witness for C10: a `get_page` hit on a one-entry cache returns, and
returns `Some`. -/
theorem get_page_returns_some_witness :
    ∃ r s', BufferPool.get_page sys0 0 ⟨0, 0⟩ .read = some (r, s') ∧ r.isSome := by
  have h : BufferPool.get_page sys0 0 ⟨0, 0⟩ .read
      = some (some pg0, ⟨[(⟨0, 0⟩, pg0)], [⟨0, ⟨0, 0⟩, false⟩], []⟩) := rfl
  exact ⟨_, _, h, get_page_returns_some _ 0 ⟨0, 0⟩ .read _ _ h⟩

/-! ### Toolbox: bytes, headers and zero pages -/

theorem fromBe4_cons (a b c d : Nat) (rest : List Nat) :
    fromBe4 (a :: b :: c :: d :: rest) = ((a * 256 + b) * 256 + c) * 256 + d := rfl

theorem fromBe4_toBe4 (n : Nat) (rest : List Nat) (h : n < 2 ^ 32) :
    fromBe4 (toBe4 n ++ rest) = n := by
  show ((n / 2 ^ 24 % 256 * 256 + n / 2 ^ 16 % 256) * 256 + n / 2 ^ 8 % 256) * 256 + n % 256 = n
  omega

theorem getD_lt_of_forall_lt (bs : List Nat) (h : ∀ b ∈ bs, b < 256) (i : Nat) :
    bs.getD i 0 < 256 := by
  rcases Nat.lt_or_ge i bs.length with hi | hi
  · rw [List.getD_eq_getElem _ _ hi]
    exact h _ (List.getElem_mem hi)
  · rw [List.getD_eq_default _ _ hi]
    decide

theorem fromBe4_lt (bs : List Nat) (h : ∀ b ∈ bs, b < 256) :
    fromBe4 bs < 2 ^ 32 := by
  have h0 := getD_lt_of_forall_lt bs h 0
  have h1 := getD_lt_of_forall_lt bs h 1
  have h2 := getD_lt_of_forall_lt bs h 2
  have h3 := getD_lt_of_forall_lt bs h 3
  unfold fromBe4
  omega

theorem getD_replicate_zero (n i : Nat) : (List.replicate n (0 : Nat)).getD i 0 = 0 := by
  rcases Nat.lt_or_ge i n with h | h
  · rw [List.getD_eq_getElem _ _ (by simpa using h)]
    simp
  · rw [List.getD_eq_default _ _ (by simpa using h)]

theorem fromBe4_replicate_zero (n : Nat) : fromBe4 (List.replicate n 0) = 0 := by
  simp [fromBe4, getD_replicate_zero]

theorem get_slot_replicate_zero (m i : Nat) :
    get_slot (List.replicate m 0) i = false := by
  simp only [get_slot]
  split
  · rfl
  · simp [getD_replicate_zero]

theorem decodeSlots_all_free (data header : List Nat) (hsz sz : Nat)
    (td : TupleDesc) (l : List Nat) (h : ∀ i ∈ l, get_slot header i = false) :
    decodeSlots data header hsz sz td l = some (l.map fun _ => Tuple.new [] td) := by
  induction l with
  | nil => rfl
  | cons i is ih =>
    have hi : get_slot header i = false := h i (List.mem_cons_self i is)
    have hrest := ih fun j hj => h j (List.mem_cons_of_mem i hj)
    simp [decodeSlots, hi, hrest]

theorem parse_string_zeros (n : Nat) (h : 4 ≤ n) :
    Ty.parse .string (List.replicate n 0) = .ok (.stringField ⟨[], 0⟩) := by
  simp only [Ty.parse, List.length_replicate, fromBe4_replicate_zero]
  rw [if_neg (by omega), if_neg (by omega), List.take_zero,
    if_pos (show validUtf8 [] = true from rfl)]

theorem parseFields_string_zeros (k : Nat) :
    ∀ n, (STRING_SIZE + 4) * k ≤ n →
      parseFields (List.replicate k .string) (List.replicate n 0)
        = some (List.replicate k (.stringField ⟨[], 0⟩)) := by
  induction k with
  | zero => intro n _; rfl
  | succ k ih =>
    intro n hn
    have h4 : 4 ≤ n := by
      have : STRING_SIZE + 4 ≤ (STRING_SIZE + 4) * (k + 1) :=
        Nat.le_mul_of_pos_right (STRING_SIZE + 4) (Nat.succ_pos k)
      unfold STRING_SIZE at *
      omega
    rw [List.replicate_succ, List.replicate_succ]
    simp only [parseFields, Ty.parseOpt, parse_string_zeros n h4]
    rw [show Ty.get_len .string = STRING_SIZE + 4 from rfl, List.drop_replicate]
    rw [ih (n - (STRING_SIZE + 4)) (by unfold STRING_SIZE at *; omega)]

/-- The tuple descriptor of eight string columns (tuple size `8 * 260 =
2080`, hence a one-slot page: `num_slots = 32768 / 16641 = 1`), used by
the concrete examples. -/
def td8 : TupleDesc := ⟨List.replicate 8 .string, List.replicate 8 "s"⟩

/-- A page image whose header byte 1 marks slot 0 occupied and whose
remaining 4095 bytes are zero. -/
def dataA : List Nat := 1 :: List.replicate 4095 0

/-- The all-zero-fields tuple of `td8`. -/
def tupZ : Tuple := Tuple.new (List.replicate 8 (.stringField ⟨[], 0⟩)) td8

/-- The result of decoding `dataA` under `td8` at page id `(1, 0)`. -/
def pageA : HeapPage :=
  ⟨⟨1, 0⟩, td8, 1, [1], [tupZ], 1, List.replicate PAGE_SIZE 0, none⟩

theorem deserialize_zeros_td8 :
    Tuple.deserialize (List.replicate 2080 0) td8 = some tupZ := by
  unfold Tuple.deserialize tupZ
  rw [show td8.types = List.replicate 8 .string from rfl]
  rw [parseFields_string_zeros 8 2080 (by decide)]
  rfl

/-- Evaluation rule for the page decoder with the intermediate quantities
spelled out. -/
theorem HeapPage.new_eval (pid : HeapPageId) (data : List Nat) (td : TupleDesc)
    (tuples : List Tuple)
    (h1 : ¬ data.length < (PAGE_SIZE * 8 / (td.get_size * 8 + 1) + 7) / 8)
    (h2 : decodeSlots data (data.take ((PAGE_SIZE * 8 / (td.get_size * 8 + 1) + 7) / 8))
        ((PAGE_SIZE * 8 / (td.get_size * 8 + 1) + 7) / 8) td.get_size td
        (List.range (PAGE_SIZE * 8 / (td.get_size * 8 + 1))) = some tuples) :
    HeapPage.new pid data td
      = some ⟨pid, td, (PAGE_SIZE * 8 / (td.get_size * 8 + 1) + 7) / 8,
          data.take ((PAGE_SIZE * 8 / (td.get_size * 8 + 1) + 7) / 8), tuples,
          PAGE_SIZE * 8 / (td.get_size * 8 + 1), List.replicate PAGE_SIZE 0, none⟩ := by
  unfold HeapPage.new
  simp only []
  rw [if_neg h1, h2]

/-- Evaluation rule for one occupied slot of the decoding loop. -/
theorem decodeSlots_cons_occupied (data header : List Nat) (hsz sz : Nat)
    (td : TupleDesc) (i : Nat) (is : List Nat)
    (hocc : get_slot header i = true)
    (hlen : ¬ data.length < hsz + i * sz + sz) :
    decodeSlots data header hsz sz td (i :: is)
      = match Tuple.deserialize ((data.drop (hsz + i * sz)).take sz) td,
          decodeSlots data header hsz sz td is with
        | some t, some ts => some (t :: ts)
        | _, _ => none := by
  conv_lhs => unfold decodeSlots
  rw [if_pos hocc, if_neg hlen]

theorem dataA_length : dataA.length = 4096 := by
  rw [show dataA = 1 :: List.replicate 4095 0 from rfl, List.length_cons,
    List.length_replicate]

theorem decode_dataA : HeapPage.new ⟨1, 0⟩ dataA td8 = some pageA := by
  have h1 : ¬ dataA.length < (PAGE_SIZE * 8 / (td8.get_size * 8 + 1) + 7) / 8 := by
    rw [dataA_length]; decide
  have h2 : decodeSlots dataA
      (dataA.take ((PAGE_SIZE * 8 / (td8.get_size * 8 + 1) + 7) / 8))
      ((PAGE_SIZE * 8 / (td8.get_size * 8 + 1) + 7) / 8) td8.get_size td8
      (List.range (PAGE_SIZE * 8 / (td8.get_size * 8 + 1))) = some [tupZ] := by
    rw [show (PAGE_SIZE * 8 / (td8.get_size * 8 + 1) + 7) / 8 = 1 from by decide,
      show PAGE_SIZE * 8 / (td8.get_size * 8 + 1) = 1 from by decide,
      show dataA.take 1 = [1] from rfl,
      show List.range 1 = [0] from rfl]
    rw [decodeSlots_cons_occupied dataA [1] 1 td8.get_size td8 0 []
      (by decide) (by rw [dataA_length]; decide)]
    rw [show td8.get_size = 2080 from rfl,
      show (1 + 0 * 2080 : Nat) = 1 from by decide,
      show dataA.drop 1 = List.replicate 4095 0 from rfl,
      List.take_replicate,
      show (2080 ⊓ 4095 : Nat) = 2080 from by decide,
      deserialize_zeros_td8]
    rfl
  refine (HeapPage.new_eval ⟨1, 0⟩ dataA td8 [tupZ] h1 h2).trans ?_
  rw [show (PAGE_SIZE * 8 / (td8.get_size * 8 + 1) + 7) / 8 = 1 from by decide,
    show PAGE_SIZE * 8 / (td8.get_size * 8 + 1) = 1 from by decide,
    show dataA.take 1 = [1] from rfl]
  rfl

/-- C2 (code bug): decoding a page with an occupied slot leaves the
tuple's record id at the `Tuple::new` sentinel `((0, 0), 0)` —
`set_record_id` is never called anywhere in the source — so for page id
`(1, 0)` the decoded tuple of slot 0 does not carry `RecordId((1,0), 0)`
as the invariant demands. -/
theorem decoded_tuple_rid_is_sentinel :
    HeapPage.new ⟨1, 0⟩ dataA td8 = some pageA
      ∧ get_slot pageA.header 0 = true
      ∧ (pageA.tuples.getD 0 (Tuple.new [] td8)).rid = ⟨⟨0, 0⟩, 0⟩
      ∧ (⟨⟨0, 0⟩, 0⟩ : RecordId) ≠ ⟨⟨1, 0⟩, 0⟩ :=
  ⟨decode_dataA, by decide, rfl, by decide⟩

/-! ### Abort and the before-image (C1) -/

/-- Evaluation rule for `abortStep` on a cached dirty page. -/
theorem abortStep_dirty (tid : Nat) (st : Sys) (pid : HeapPageId)
    (page before : HeapPage)
    (hlook : lookupAssoc st.cache pid = some page)
    (hdirty : page.is_dirty = true)
    (hbefore : page.get_before_image = some before) :
    abortStep tid st pid
      = some { st with cache := insertAssoc st.cache pid (before.mark_dirty false tid) } := by
  unfold abortStep
  rw [hlook]
  simp only []
  rw [if_pos hdirty, hbefore]

/-- Evaluation rule for `abort_transaction` when the transaction locks a
single page. -/
theorem abort_transaction_single (s : Sys) (tid : Nat) (pid : HeapPageId)
    (st' : Sys)
    (hpids : get_locked_pages s.locks tid = [pid])
    (hstep : abortStep tid s pid = some st') :
    BufferPool.abort_transaction s tid
      = some { st' with locks := release_locks st'.locks tid } := by
  unfold BufferPool.abort_transaction
  rw [hpids, List.foldlM_cons, hstep]
  rfl

/-- The page decoded from `dataA`, subsequently dirtied by transaction 7. -/
def pageAd : HeapPage := { pageA with dirtied_by := some 7 }

/-- System state: `pageAd` cached, its page exclusively locked by
transaction 7. -/
def sysA : Sys := ⟨[(⟨1, 0⟩, pageAd)], [⟨7, ⟨1, 0⟩, true⟩], []⟩

/-- The empty (all-zero) page of `td8` at page id `(1, 0)`: what decoding
a `PAGE_SIZE`-zero buffer produces. -/
def pageZ : HeapPage :=
  ⟨⟨1, 0⟩, td8, 1, [0], [Tuple.new [] td8], 1, List.replicate PAGE_SIZE 0, none⟩

/-- System state after aborting transaction 7 from `sysA`. -/
def sysZ : Sys := ⟨[(⟨1, 0⟩, pageZ)], [], []⟩

theorem decode_zeros_td8 :
    HeapPage.new ⟨1, 0⟩ (List.replicate PAGE_SIZE 0) td8 = some pageZ := by
  have h1 : ¬ (List.replicate PAGE_SIZE (0 : Nat)).length
      < (PAGE_SIZE * 8 / (td8.get_size * 8 + 1) + 7) / 8 := by
    rw [List.length_replicate]; decide
  have h2 : decodeSlots (List.replicate PAGE_SIZE 0)
      ((List.replicate PAGE_SIZE (0 : Nat)).take ((PAGE_SIZE * 8 / (td8.get_size * 8 + 1) + 7) / 8))
      ((PAGE_SIZE * 8 / (td8.get_size * 8 + 1) + 7) / 8) td8.get_size td8
      (List.range (PAGE_SIZE * 8 / (td8.get_size * 8 + 1))) = some [Tuple.new [] td8] := by
    rw [show (PAGE_SIZE * 8 / (td8.get_size * 8 + 1) + 7) / 8 = 1 from by decide,
      show PAGE_SIZE * 8 / (td8.get_size * 8 + 1) = 1 from by decide,
      List.take_replicate, show (1 ⊓ PAGE_SIZE : Nat) = 1 from by decide,
      show List.range 1 = [0] from rfl,
      decodeSlots_all_free _ _ _ _ _ _ (fun i _ => get_slot_replicate_zero 1 i)]
    rfl
  refine (HeapPage.new_eval ⟨1, 0⟩ (List.replicate PAGE_SIZE 0) td8 [Tuple.new [] td8] h1 h2).trans ?_
  rw [show (PAGE_SIZE * 8 / (td8.get_size * 8 + 1) + 7) / 8 = 1 from by decide,
    show PAGE_SIZE * 8 / (td8.get_size * 8 + 1) = 1 from by decide,
    List.take_replicate, show (1 ⊓ PAGE_SIZE : Nat) = 1 from by decide]
  rfl

/-- C1 (code bug): `abort_transaction` reverts a dirty page to the decode
of its `old_data` snapshot, but `HeapPage::new` initializes `old_data` to
`PAGE_SIZE` zero bytes and nothing ever snapshots the bytes loaded from
disk — `set_before_image` is only called on commit.  So aborting a
transaction that dirtied a page loaded from disk (here: `dataA`, whose
slot 0 is occupied) replaces it with the decoded all-zero page, not with
its pre-transaction content: the occupied slot of `pageA` is lost.  The
dirty flag is cleared and the locks are released as claimed. -/
theorem abort_reverts_to_zeros_not_loaded_content :
    HeapPage.new ⟨1, 0⟩ dataA td8 = some pageA
      ∧ pageA.mark_dirty true 7 = pageAd
      ∧ BufferPool.abort_transaction sysA 7 = some sysZ
      ∧ lookupAssoc sysZ.cache ⟨1, 0⟩ = some pageZ
      ∧ pageZ.dirtied_by = none
      ∧ get_locked_pages sysZ.locks 7 = []
      ∧ pageZ.header ≠ pageA.header
      ∧ pageZ ≠ pageA := by
  have hbefore : pageAd.get_before_image = some pageZ := decode_zeros_td8
  have hstep : abortStep 7 sysA ⟨1, 0⟩ = some ⟨[(⟨1, 0⟩, pageZ)], sysA.locks, []⟩ :=
    (abortStep_dirty 7 sysA ⟨1, 0⟩ pageAd pageZ rfl rfl hbefore).trans (by rfl)
  have habort : BufferPool.abort_transaction sysA 7 = some sysZ :=
    (abort_transaction_single sysA 7 ⟨1, 0⟩ ⟨[(⟨1, 0⟩, pageZ)], sysA.locks, []⟩
      rfl hstep).trans (by rfl)
  refine ⟨decode_dataA, rfl, habort, rfl, rfl, rfl, by decide, ?_⟩
  intro h
  exact absurd (congrArg HeapPage.header h) (by decide)

/-! ### Heap-file growth (C9) -/

theorem writeAt_length (file : List Nat) (pos : Nat) (data : List Nat) :
    (writeAt file pos data).length = max (pos + data.length) file.length := by
  simp only [writeAt, List.length_append, List.length_take, List.length_replicate,
    List.length_drop]
  omega

theorem writeAt_append_zeros (file : List Nat) (pos : Nat) (data : List Nat)
    (h : file.length ≤ pos) :
    writeAt file pos data = file ++ List.replicate (pos - file.length) 0 ++ data := by
  unfold writeAt
  rw [List.take_of_length_le (by rw [List.length_append, List.length_replicate]; omega),
    List.drop_eq_nil_of_le (by omega), List.append_nil]

theorem writeAt_zeros_at_end (m : Nat) :
    writeAt (List.replicate m 0) m (List.replicate PAGE_SIZE 0)
      = List.replicate (m + PAGE_SIZE) 0 := by
  rw [writeAt_append_zeros _ _ _ (by rw [List.length_replicate]),
    List.length_replicate, Nat.sub_self, List.replicate_zero, List.append_nil,
    ← List.replicate_add]

theorem extendFile_stop (file : List Nat) (n p : Nat) (h : ¬ n ≤ p) :
    extendFile file n p = file := by
  unfold extendFile
  rw [if_neg h]

theorem extendFile_step (file : List Nat) (n p : Nat) (h : n ≤ p) :
    extendFile file n p
      = extendFile (writeAt file (n * PAGE_SIZE) (List.replicate PAGE_SIZE 0))
          (n + 1) p := by
  conv_lhs => unfold extendFile
  rw [if_pos h]

theorem extendFile_length_aux (k : Nat) :
    ∀ (n : Nat) (file : List Nat) (p : Nat), p + 1 - n ≤ k → n ≤ p →
      file.length ≤ n * PAGE_SIZE →
      (extendFile file n p).length = (p + 1) * PAGE_SIZE := by
  induction k with
  | zero => intro n file p hk hn _; omega
  | succ k ih =>
    intro n file p hk hn hf
    rw [extendFile_step file n p hn]
    by_cases hnp : n + 1 ≤ p
    · refine ih (n + 1) _ p (by omega) hnp ?_
      rw [writeAt_length, List.length_replicate]
      simp only [PAGE_SIZE] at *
      omega
    · have hnp' : n = p := by omega
      subst hnp'
      rw [extendFile_stop _ _ _ (by omega), writeAt_length, List.length_replicate]
      simp only [PAGE_SIZE] at *
      omega

theorem extendFile_zeros (k : Nat) :
    ∀ n : Nat, extendFile (List.replicate (n * PAGE_SIZE) 0) n (n + k)
      = List.replicate ((n + k + 1) * PAGE_SIZE) 0 := by
  induction k with
  | zero =>
    intro n
    rw [extendFile_step _ _ _ (by omega), writeAt_zeros_at_end,
      extendFile_stop _ _ _ (by omega),
      show n * PAGE_SIZE + PAGE_SIZE = (n + 0 + 1) * PAGE_SIZE from by ring]
  | succ k ih =>
    intro n
    rw [extendFile_step _ _ _ (by omega), writeAt_zeros_at_end,
      show n * PAGE_SIZE + PAGE_SIZE = (n + 1) * PAGE_SIZE from by ring]
    rw [show n + (k + 1) = (n + 1) + k from by omega, ih (n + 1),
      show (n + 1 + k + 1) * PAGE_SIZE = (n + (k + 1) + 1) * PAGE_SIZE from by ring]

/-- The page produced by decoding `PAGE_SIZE` zero bytes under `td`. -/
def emptyPage (pid : HeapPageId) (td : TupleDesc) : HeapPage :=
  ⟨pid, td, (PAGE_SIZE * 8 / (td.get_size * 8 + 1) + 7) / 8,
    List.replicate ((PAGE_SIZE * 8 / (td.get_size * 8 + 1) + 7) / 8) 0,
    List.replicate (PAGE_SIZE * 8 / (td.get_size * 8 + 1)) (Tuple.new [] td),
    PAGE_SIZE * 8 / (td.get_size * 8 + 1), List.replicate PAGE_SIZE 0, none⟩

theorem header_size_le_PAGE_SIZE (td : TupleDesc) :
    (PAGE_SIZE * 8 / (td.get_size * 8 + 1) + 7) / 8 ≤ PAGE_SIZE := by
  have h : PAGE_SIZE * 8 / (td.get_size * 8 + 1) ≤ PAGE_SIZE * 8 :=
    Nat.div_le_self _ _
  simp only [PAGE_SIZE] at *
  omega

theorem new_zeros_eq_emptyPage (pid : HeapPageId) (td : TupleDesc) :
    HeapPage.new pid (List.replicate PAGE_SIZE 0) td = some (emptyPage pid td) := by
  have hle := header_size_le_PAGE_SIZE td
  have h1 : ¬ (List.replicate PAGE_SIZE (0 : Nat)).length
      < (PAGE_SIZE * 8 / (td.get_size * 8 + 1) + 7) / 8 := by
    rw [List.length_replicate]
    omega
  have h2 : decodeSlots (List.replicate PAGE_SIZE 0)
      ((List.replicate PAGE_SIZE (0 : Nat)).take ((PAGE_SIZE * 8 / (td.get_size * 8 + 1) + 7) / 8))
      ((PAGE_SIZE * 8 / (td.get_size * 8 + 1) + 7) / 8) td.get_size td
      (List.range (PAGE_SIZE * 8 / (td.get_size * 8 + 1)))
      = some (List.replicate (PAGE_SIZE * 8 / (td.get_size * 8 + 1)) (Tuple.new [] td)) := by
    rw [List.take_replicate,
      decodeSlots_all_free _ _ _ _ _ _
        (fun i _ => get_slot_replicate_zero _ i),
      List.map_const', List.length_range]
  exact (HeapPage.new_eval pid _ td _ h1 h2).trans
    (by rw [List.take_replicate, min_eq_left hle]; rfl)

theorem emptyPage_all_free (pid : HeapPageId) (td : TupleDesc) (i : Nat) :
    get_slot (emptyPage pid td).header i = false :=
  get_slot_replicate_zero _ i

theorem emptyPage_no_occupied (pid : HeapPageId) (td : TupleDesc) :
    (emptyPage pid td).get_num_empty_slots = (emptyPage pid td).num_slots := by
  unfold HeapPage.get_num_empty_slots
  rw [List.filter_eq_self.mpr
    (fun a _ => by rw [emptyPage_all_free pid td a]; rfl), List.length_range]

/-- C9: `read_page(p)` on a heap file with fewer than `p + 1` pages
(`ceil(len / PAGE_SIZE) ≤ p`) zero-extends the file to exactly
`(p + 1) * PAGE_SIZE` bytes — a multiple of `PAGE_SIZE` — before reading;
in particular `read_page(3)` on an empty file leaves the file as 16384
zero bytes and returns the decoded all-zero page, which has zero occupied
slots. -/
theorem read_page_zero_extends (file : List Nat) (p : Nat) (td : TupleDesc)
    (pid : HeapPageId) (hp : pid.page_number = p)
    (hfew : ceilPages file.length ≤ p) :
    ((HeapFile.read_page ⟨file, td⟩ pid).1.file.length = (p + 1) * PAGE_SIZE
      ∧ PAGE_SIZE ∣ (HeapFile.read_page ⟨file, td⟩ pid).1.file.length)
    ∧ (file = [] → p = 3 →
        (HeapFile.read_page ⟨file, td⟩ pid).1.file = List.replicate 16384 0
        ∧ (HeapFile.read_page ⟨file, td⟩ pid).2 = some (emptyPage pid td)
        ∧ (∀ i, get_slot (emptyPage pid td).header i = false)
        ∧ (emptyPage pid td).get_num_empty_slots = (emptyPage pid td).num_slots) := by
  have hlen : file.length ≤ ceilPages file.length * PAGE_SIZE := by
    simp only [ceilPages, PAGE_SIZE]
    omega
  have hext : (extendFile file (ceilPages file.length) p).length
      = (p + 1) * PAGE_SIZE := by
    rcases Nat.lt_or_ge (ceilPages file.length) (p + 1) with hc | hc
    · exact extendFile_length_aux (p + 1) _ file p (by omega) (by omega) hlen
    · omega
  constructor
  · unfold HeapFile.read_page
    simp only [hp]
    constructor
    · split <;> exact hext
    · split <;> (rw [hext]; exact dvd_mul_left PAGE_SIZE (p + 1))
  · intro hfile hp3
    subst hfile
    subst hp3
    have hball : extendFile [] (ceilPages ([] : List Nat).length) 3
        = List.replicate 16384 0 := by
      rw [show ceilPages (List.length ([] : List Nat)) = 0 from by decide]
      have h := extendFile_zeros 3 0
      rw [show (0 : Nat) * PAGE_SIZE = 0 from by decide] at h
      rw [show List.replicate 0 (0 : Nat) = [] from rfl] at h
      rw [show ((0 : Nat) + 3) = 3 from rfl] at h
      rw [show ((0 : Nat) + 3 + 1) * PAGE_SIZE = 16384 from by decide] at h
      exact h
    unfold HeapFile.read_page
    simp only [hp]
    rw [hball, List.length_replicate, if_neg (by decide)]
    refine ⟨rfl, ?_, emptyPage_all_free pid td, emptyPage_no_occupied pid td⟩
    rw [show (List.replicate 16384 (0 : Nat)).drop (3 * PAGE_SIZE)
        = List.replicate 4096 0 from by
      rw [List.drop_replicate, show (16384 - 3 * PAGE_SIZE : Nat) = 4096 from by decide]]
    rw [show (List.replicate 4096 (0 : Nat)).take PAGE_SIZE
        = List.replicate PAGE_SIZE 0 from by
      rw [List.take_replicate, show (PAGE_SIZE ⊓ 4096 : Nat) = PAGE_SIZE from by decide]]
    rw [new_zeros_eq_emptyPage pid td]

/-- Witness for C9 at the concrete scenario: empty file, page number 3,
schema `td8`. -/
theorem read_page_zero_extends_witness :
    (HeapFile.read_page ⟨[], td8⟩ ⟨0, 3⟩).1.file.length = (3 + 1) * PAGE_SIZE
      ∧ (HeapFile.read_page ⟨[], td8⟩ ⟨0, 3⟩).1.file = List.replicate 16384 0
      ∧ (HeapFile.read_page ⟨[], td8⟩ ⟨0, 3⟩).2 = some (emptyPage ⟨0, 3⟩ td8) := by
  have h := read_page_zero_extends [] 3 td8 ⟨0, 3⟩ rfl (by decide)
  exact ⟨h.1.1, (h.2 rfl rfl).1, (h.2 rfl rfl).2.1⟩

/-! ### Deleting tuples (C7) -/

theorem getD_set_self (l : List Nat) (n : Nat) (a : Nat) (h : n < l.length) :
    (l.set n a).getD n 0 = a := by
  rw [List.getD_eq_getElem _ _ (by rw [List.length_set]; exact h),
    List.getElem_set_self]

theorem get_slot_set_slot_false (header : List Nat) (i : Nat)
    (hg : get_slot header i = true) :
    get_slot (set_slot header i false) i = false := by
  have hidx : i / 8 < header.length := by
    by_contra hc
    rw [not_lt] at hc
    simp only [get_slot] at hg
    rw [if_pos hc] at hg
    cases hg
  show get_slot (header.set (i / 8)
    ((header.getD (i / 8) 0) &&& (255 ^^^ 2 ^ (i % 8)))) i = false
  simp only [get_slot]
  rw [if_neg (by rw [List.length_set]; omega),
    getD_set_self _ _ _ hidx,
    Nat.testBit_land, Nat.testBit_xor,
    show (255 : Nat) = 2 ^ 8 - 1 from rfl,
    Nat.testBit_two_pow_sub_one, Nat.testBit_two_pow]
  rw [decide_eq_true (show i % 8 < 8 from Nat.mod_lt i (by omega)),
    decide_eq_true (rfl : i % 8 = i % 8),
    show (true ^^ true) = false from rfl, Bool.and_false]

/-- C7: `delete_tuple` fails with `NotOnPage` exactly when the tuple's
record id addresses another page or the addressed header bit is clear
(the code's — and the page format's — notion of slot occupancy); in the
pure model failure returns no modified page, mirroring that the source
returns `Err` before any mutation; on success the slot is reset to the
sentinel tuple and its header bit is cleared, everything else unchanged.
The final conjunct records the one remaining behavior: when the record id
matches, the header bit is set, but the slot index is outside the tuple
vector (a stray header bit of a corrupt page), the source panics on
`self.tuples[tuple_no]` instead of returning. -/
theorem delete_tuple_spec (P : HeapPage) (t : Tuple) :
    (P.delete_tuple t = .notOnPage
        ↔ (t.rid.pid ≠ P.pid ∨ get_slot P.header t.rid.tuple_no = false))
    ∧ (∀ P', P.delete_tuple t = .ok P' →
        P'.header = set_slot P.header t.rid.tuple_no false
        ∧ get_slot P'.header t.rid.tuple_no = false
        ∧ P'.tuples = P.tuples.set t.rid.tuple_no (Tuple.new [] P.td)
        ∧ P'.pid = P.pid ∧ P'.td = P.td ∧ P'.num_slots = P.num_slots
        ∧ P'.old_data = P.old_data ∧ P'.dirtied_by = P.dirtied_by)
    ∧ (P.delete_tuple t = .fatal
        → t.rid.pid = P.pid ∧ get_slot P.header t.rid.tuple_no = true
          ∧ P.tuples.length ≤ t.rid.tuple_no) := by
  by_cases h1 : t.rid.pid ≠ P.pid
  · have e : P.delete_tuple t = .notOnPage := by
      unfold HeapPage.delete_tuple
      rw [if_pos h1]
    rw [e]
    refine ⟨⟨fun _ => Or.inl h1, fun _ => rfl⟩, ?_, ?_⟩
    · intro P' h
      exact DeleteRes.noConfusion h
    · intro h
      exact DeleteRes.noConfusion h
  · rw [not_not] at h1
    have hne : ¬ t.rid.pid ≠ P.pid := fun h => h h1
    by_cases h2 : get_slot P.header t.rid.tuple_no = true
    · have hocc : ¬ (!get_slot P.header t.rid.tuple_no) = true := by
        rw [h2]
        exact fun h => Bool.noConfusion h
      by_cases h3 : P.tuples.length ≤ t.rid.tuple_no
      · have e : P.delete_tuple t = .fatal := by
          unfold HeapPage.delete_tuple
          rw [if_neg hne, if_neg hocc, if_pos h3]
        rw [e]
        refine ⟨⟨fun h => DeleteRes.noConfusion h, ?_⟩, ?_, ?_⟩
        · rintro (h | h)
          · exact absurd h1 h
          · rw [h2] at h
            exact Bool.noConfusion h
        · intro P' h
          exact DeleteRes.noConfusion h
        · intro _
          exact ⟨h1, h2, h3⟩
      · have e : P.delete_tuple t = .ok { P with
            tuples := P.tuples.set t.rid.tuple_no (Tuple.new [] P.td),
            header := set_slot P.header t.rid.tuple_no false } := by
          unfold HeapPage.delete_tuple
          rw [if_neg hne, if_neg hocc, if_neg h3]
        rw [e]
        refine ⟨⟨fun h => DeleteRes.noConfusion h, ?_⟩, ?_, ?_⟩
        · rintro (h | h)
          · exact absurd h1 h
          · rw [h2] at h
            exact Bool.noConfusion h
        · intro P' h
          have h' := DeleteRes.ok.inj h
          subst h'
          exact ⟨rfl, get_slot_set_slot_false P.header _ h2, rfl, rfl, rfl,
            rfl, rfl, rfl⟩
        · intro h
          exact DeleteRes.noConfusion h
    · have h2' : get_slot P.header t.rid.tuple_no = false := by
        rw [← Bool.not_eq_true]
        exact h2
      have e : P.delete_tuple t = .notOnPage := by
        unfold HeapPage.delete_tuple
        rw [if_neg hne, if_pos (by rw [h2']; rfl)]
      rw [e]
      refine ⟨⟨fun _ => Or.inr h2', fun _ => rfl⟩, ?_, ?_⟩
      · intro P' h
        exact DeleteRes.noConfusion h
      · intro h
        exact DeleteRes.noConfusion h

/-! ### Commit (C6): association-list, slice and write lemmas -/

theorem lookupAssoc_insertAssoc_self {α β : Type} [BEq α] [LawfulBEq α]
    (m : List (α × β)) (k : α) (v : β) :
    lookupAssoc (insertAssoc m k v) k = some v := by
  unfold insertAssoc lookupAssoc
  rw [if_pos (beq_self_eq_true k)]

theorem lookupAssoc_filter_ne {α β : Type} [BEq α] [LawfulBEq α]
    (m : List (α × β)) (k q : α) (h : q ≠ k) :
    lookupAssoc (m.filter fun e => e.1 != k) q = lookupAssoc m q := by
  induction m with
  | nil => rfl
  | cons e es ih =>
    by_cases he : e.1 = k
    · rw [List.filter_cons]
      rw [show (e.1 != k) = false from by rw [he]; simp]
      show lookupAssoc (es.filter fun e => e.1 != k) q
        = if e.1 == q then some e.2 else lookupAssoc es q
      rw [if_neg (by rw [he]; exact fun hc => h (eq_of_beq hc).symm)]
      exact ih
    · rw [List.filter_cons, show (e.1 != k) = true from bne_iff_ne.mpr he]
      show (if e.1 == q then some e.2 else lookupAssoc (es.filter fun e => e.1 != k) q)
        = if e.1 == q then some e.2 else lookupAssoc es q
      by_cases hq : (e.1 == q) = true
      · rw [if_pos hq, if_pos hq]
      · rw [if_neg hq, if_neg hq]
        exact ih

theorem lookupAssoc_insertAssoc_ne {α β : Type} [BEq α] [LawfulBEq α]
    (m : List (α × β)) (k : α) (v : β) (q : α) (h : q ≠ k) :
    lookupAssoc (insertAssoc m k v) q = lookupAssoc m q := by
  unfold insertAssoc
  show (if k == q then some v else lookupAssoc (m.filter fun e => e.1 != k) q)
    = lookupAssoc m q
  rw [if_neg (fun hc => h (eq_of_beq hc).symm)]
  exact lookupAssoc_filter_ne m k q h

theorem slice_append {α : Type} (A B : List α) (off n : Nat)
    (h : off + n ≤ A.length) :
    ((A ++ B).drop off).take n = (A.drop off).take n := by
  rw [List.drop_append_eq_append_drop, List.take_append_eq_append_take]
  rw [show off - A.length = 0 from by omega, List.drop_zero,
    show n - (A.drop off).length = 0 from by rw [List.length_drop]; omega,
    List.take_zero, List.append_nil]

theorem length_take_of_le {α : Type} (l : List α) (n : Nat) (h : n ≤ l.length) :
    (l.take n).length = n := by
  rw [List.length_take]
  omega

theorem writeAt_decomp (file : List Nat) (pos : Nat) (data : List Nat) :
    ∃ T, writeAt file pos data = T ++ data ++ file.drop (pos + data.length)
      ∧ T.length = pos := by
  refine ⟨(file ++ List.replicate (pos - file.length) 0).take pos, rfl, ?_⟩
  rw [length_take_of_le]
  rw [List.length_append, List.length_replicate]
  omega

theorem slice_writeAt_of_lt (file : List Nat) (pos : Nat) (data : List Nat)
    (off n : Nat) (hbound : off + n ≤ file.length) (hdisj : off + n ≤ pos) :
    ((writeAt file pos data).drop off).take n = (file.drop off).take n := by
  have hXlen : (file ++ List.replicate (pos - file.length) 0).length
      = file.length + (pos - file.length) := by
    rw [List.length_append, List.length_replicate]
  have hTlen : ((file ++ List.replicate (pos - file.length) 0).take pos).length
      = pos := length_take_of_le _ _ (by omega)
  show ((((file ++ List.replicate (pos - file.length) 0).take pos
      ++ data ++ file.drop (pos + data.length)).drop off).take n)
    = (file.drop off).take n
  rw [List.append_assoc, slice_append _ _ off n (by rw [hTlen]; omega),
    List.drop_take, List.take_take, min_eq_left (by omega),
    slice_append file _ off n hbound]

theorem slice_writeAt_of_ge (file : List Nat) (pos : Nat) (data : List Nat)
    (off n : Nat) (hdisj : pos + data.length ≤ off) :
    ((writeAt file pos data).drop off).take n = (file.drop off).take n := by
  obtain ⟨T, hw, hT⟩ := writeAt_decomp file pos data
  rw [hw, List.append_assoc, List.drop_append_eq_append_drop,
    List.drop_eq_nil_of_le (by omega : T.length ≤ off),
    List.nil_append, hT, List.drop_append_eq_append_drop,
    List.drop_eq_nil_of_le (by omega : data.length ≤ off - pos),
    List.nil_append, List.drop_drop,
    show pos + data.length + (off - pos - data.length) = off from by omega]

theorem slice_writeAt_self (file : List Nat) (pos : Nat) (data : List Nat) :
    ((writeAt file pos data).drop pos).take data.length = data := by
  obtain ⟨T, hw, hT⟩ := writeAt_decomp file pos data
  rw [hw, List.append_assoc, List.drop_append_eq_append_drop,
    List.drop_eq_nil_of_le (le_of_eq hT), List.nil_append, hT, Nat.sub_self,
    List.drop_zero, List.take_append_eq_append_take,
    List.take_of_length_le (le_refl data.length), Nat.sub_self,
    List.take_zero, List.append_nil]

theorem slotBytes_congr (p p' : HeapPage) (h1 : p.header = p'.header)
    (h2 : p.tuples = p'.tuples) (h3 : p.td = p'.td) :
    ∀ l, slotBytes p l = slotBytes p' l := by
  intro l
  induction l with
  | nil => rfl
  | cons i is ih =>
    unfold slotBytes
    rw [h1, h2, h3, ih]

theorem get_page_data_congr (p p' : HeapPage) (h1 : p.header = p'.header)
    (h2 : p.tuples = p'.tuples) (h3 : p.td = p'.td)
    (h4 : p.num_slots = p'.num_slots) :
    p.get_page_data = p'.get_page_data := by
  unfold HeapPage.get_page_data
  rw [h1, h4, slotBytes_congr p p' h1 h2 h3]

/-- Committing a page (`mark_dirty(false)` then `set_before_image`) does
not change its encoded bytes. -/
theorem get_page_data_clean (p : HeapPage) (tid : Nat) :
    ((p.mark_dirty false tid).set_before_image).get_page_data
      = p.get_page_data :=
  get_page_data_congr _ _ rfl rfl rfl rfl

theorem clean_dirtied_by (p : HeapPage) (tid : Nat) :
    ((p.mark_dirty false tid).set_before_image).dirtied_by = none := rfl

theorem clean_old_data (p : HeapPage) (tid : Nat) :
    ((p.mark_dirty false tid).set_before_image).old_data = p.get_page_data :=
  get_page_data_congr _ _ rfl rfl rfl rfl

theorem get_locked_pages_release (locks : List Lock) (tid : Nat) :
    get_locked_pages (release_locks locks tid) tid = [] := by
  have h : (release_locks locks tid).filter (fun l => l.tid == tid) = [] := by
    unfold release_locks
    rw [List.filter_filter]
    refine List.filter_eq_nil_iff.mpr (fun a _ => ?_)
    show ¬((a.tid == tid) && (a.tid != tid)) = true
    rw [show (a.tid != tid) = !(a.tid == tid) from rfl, Bool.and_not_self]
    exact Bool.noConfusion
  unfold get_locked_pages txnLocks
  rw [h]
  rfl

/-- All cached pages encode to exactly `PAGE_SIZE` bytes (true of every
page the system builds: decoded pages and their slot-level mutations). -/
def CachePagesSized (st : Sys) : Prop :=
  ∀ q page, lookupAssoc st.cache q = some page →
    page.get_page_data.length = PAGE_SIZE

theorem commitStep_not_cached (tid : Nat) (st : Sys) (pid : HeapPageId)
    (h : lookupAssoc st.cache pid = none) :
    commitStep tid st pid = some st := by
  unfold commitStep
  rw [h]

theorem commitStep_clean (tid : Nat) (st : Sys) (pid : HeapPageId)
    (page : HeapPage) (h : lookupAssoc st.cache pid = some page)
    (hd : page.is_dirty = false) :
    commitStep tid st pid = some st := by
  unfold commitStep
  rw [h]
  simp only []
  rw [if_neg (by rw [hd]; exact Bool.noConfusion)]

theorem commitStep_dirty (tid : Nat) (st : Sys) (pid : HeapPageId)
    (page : HeapPage) (hf : HeapFile)
    (h : lookupAssoc st.cache pid = some page) (hd : page.is_dirty = true)
    (ht : lookupAssoc st.tables pid.table_id = some hf) :
    commitStep tid st pid = some { st with
      cache := insertAssoc st.cache pid ((page.mark_dirty false tid).set_before_image),
      tables := insertAssoc st.tables pid.table_id (hf.write_page page) } := by
  unfold commitStep
  rw [h]
  simp only []
  rw [if_pos hd, ht]

/-- Inversion of one commit step. -/
theorem commitStep_inv (tid : Nat) (st : Sys) (pid : HeapPageId) (st' : Sys)
    (h : commitStep tid st pid = some st') :
    (st' = st ∧ ∀ page, lookupAssoc st.cache pid = some page → page.is_dirty = false)
    ∨ (∃ page hf, lookupAssoc st.cache pid = some page ∧ page.is_dirty = true
        ∧ lookupAssoc st.tables pid.table_id = some hf
        ∧ st' = { st with
            cache := insertAssoc st.cache pid ((page.mark_dirty false tid).set_before_image),
            tables := insertAssoc st.tables pid.table_id (hf.write_page page) }) := by
  cases hc : lookupAssoc st.cache pid with
  | none =>
    rw [commitStep_not_cached tid st pid hc] at h
    exact Or.inl ⟨(Option.some.inj h).symm, fun page hp => Option.noConfusion hp⟩
  | some page =>
    by_cases hd : page.is_dirty = true
    · cases ht : lookupAssoc st.tables pid.table_id with
      | none =>
        exfalso
        unfold commitStep at h
        rw [hc] at h
        simp only [] at h
        rw [if_pos hd, ht] at h
        exact Option.noConfusion h
      | some hf =>
        rw [commitStep_dirty tid st pid page hf hc hd ht] at h
        exact Or.inr ⟨page, hf, rfl, hd, rfl, (Option.some.inj h).symm⟩
    · have hd' : page.is_dirty = false := by
        rw [← Bool.not_eq_true]
        exact hd
      rw [commitStep_clean tid st pid page hc hd'] at h
      refine Or.inl ⟨(Option.some.inj h).symm, fun page' hp' => ?_⟩
      rw [← Option.some.inj hp']
      exact hd'

theorem commitStep_preserves_sized (tid : Nat) (st st' : Sys)
    (pid : HeapPageId) (h : commitStep tid st pid = some st')
    (hs : CachePagesSized st) : CachePagesSized st' := by
  rcases commitStep_inv tid st pid st' h with ⟨he, -⟩ | ⟨page, hf, hc, -, -, he⟩
  · rw [he]; exact hs
  · intro q page' hq
    rw [he] at hq
    by_cases hqp : q = pid
    · subst hqp
      rw [show ({ st with
          cache := insertAssoc st.cache q ((page.mark_dirty false tid).set_before_image),
          tables := insertAssoc st.tables q.table_id (hf.write_page page) } : Sys).cache
        = insertAssoc st.cache q ((page.mark_dirty false tid).set_before_image) from rfl,
        lookupAssoc_insertAssoc_self] at hq
      rw [← Option.some.inj hq, get_page_data_clean]
      exact hs q page hc
    · rw [show ({ st with
          cache := insertAssoc st.cache pid ((page.mark_dirty false tid).set_before_image),
          tables := insertAssoc st.tables pid.table_id (hf.write_page page) } : Sys).cache
        = insertAssoc st.cache pid ((page.mark_dirty false tid).set_before_image) from rfl,
        lookupAssoc_insertAssoc_ne _ _ _ _ hqp] at hq
      exact hs q page' hq

/-- Cached pages are stored under their own page id (true of every state
the buffer pool builds: `get_page` installs the decoded page under the id
it was decoded with). -/
def CacheKeysMatch (st : Sys) : Prop :=
  ∀ q page, lookupAssoc st.cache q = some page → page.pid = q

theorem commitStep_preserves_keys (tid : Nat) (st st' : Sys)
    (pid : HeapPageId) (h : commitStep tid st pid = some st')
    (hk : CacheKeysMatch st) : CacheKeysMatch st' := by
  rcases commitStep_inv tid st pid st' h with ⟨he, -⟩ | ⟨page, hf, hc, -, -, he⟩
  · rw [he]; exact hk
  · intro q page' hq
    rw [he] at hq
    by_cases hqp : q = pid
    · subst hqp
      rw [show ({ st with
          cache := insertAssoc st.cache q ((page.mark_dirty false tid).set_before_image),
          tables := insertAssoc st.tables q.table_id (hf.write_page page) } : Sys).cache
        = insertAssoc st.cache q ((page.mark_dirty false tid).set_before_image) from rfl,
        lookupAssoc_insertAssoc_self] at hq
      rw [← Option.some.inj hq]
      exact hk q page hc
    · rw [show ({ st with
          cache := insertAssoc st.cache pid ((page.mark_dirty false tid).set_before_image),
          tables := insertAssoc st.tables pid.table_id (hf.write_page page) } : Sys).cache
        = insertAssoc st.cache pid ((page.mark_dirty false tid).set_before_image) from rfl,
        lookupAssoc_insertAssoc_ne _ _ _ _ hqp] at hq
      exact hk q page' hq

theorem foldlM_some_cons {σ α : Type} (f : σ → α → Option σ) (s s' : σ)
    (a : α) (l : List α) (h : List.foldlM f s (a :: l) = some s') :
    ∃ s₁, f s a = some s₁ ∧ List.foldlM f s₁ l = some s' := by
  rw [List.foldlM_cons] at h
  exact Option.bind_eq_some.mp h

theorem fold_commit_region (tid : Nat) (pids : List HeapPageId) :
    ∀ (st st' : Sys) (tbl off : Nat) (hfile : HeapFile),
      List.foldlM (commitStep tid) st pids = some st' →
      CachePagesSized st → CacheKeysMatch st →
      lookupAssoc st.tables tbl = some hfile →
      off + PAGE_SIZE ≤ hfile.file.length →
      (∀ q ∈ pids, q.table_id = tbl →
        (q.page_number * PAGE_SIZE + PAGE_SIZE ≤ off
          ∨ off + PAGE_SIZE ≤ q.page_number * PAGE_SIZE)) →
      ∃ hf', lookupAssoc st'.tables tbl = some hf'
        ∧ off + PAGE_SIZE ≤ hf'.file.length
        ∧ (hf'.file.drop off).take PAGE_SIZE
            = (hfile.file.drop off).take PAGE_SIZE := by
  induction pids with
  | nil =>
    intro st st' tbl off hfile h _ _ ht hb _
    rw [show List.foldlM (commitStep tid) st [] = some st from rfl] at h
    rw [← Option.some.inj h]
    exact ⟨hfile, ht, hb, rfl⟩
  | cons q₀ rest ih =>
    intro st st' tbl off hfile h hs hk ht hb hdisj
    obtain ⟨st₁, h₀, h₁⟩ := foldlM_some_cons _ _ _ _ _ h
    have hs₁ : CachePagesSized st₁ := commitStep_preserves_sized tid st st₁ q₀ h₀ hs
    have hk₁ : CacheKeysMatch st₁ := commitStep_preserves_keys tid st st₁ q₀ h₀ hk
    rcases commitStep_inv tid st q₀ st₁ h₀ with ⟨he, -⟩ | ⟨page, hfq, hcq, hdq, htq, he⟩
    · rw [he] at h₁
      exact ih st st' tbl off hfile h₁ hs hk ht hb
        (fun q hq => hdisj q (List.mem_cons_of_mem _ hq))
    · by_cases htbl : q₀.table_id = tbl
      · have hq0 := hdisj q₀ (List.mem_cons_self _ _) htbl
        have hlen : page.get_page_data.length = PAGE_SIZE := hs q₀ page hcq
        have hpid : page.pid = q₀ := hk q₀ page hcq
        rw [htbl] at htq
        have hfqe : hfq = hfile := Option.some.inj (htq.symm.trans ht)
        subst hfqe
        have ht₁ : lookupAssoc st₁.tables tbl = some (hfq.write_page page) := by
          rw [he]
          show lookupAssoc (insertAssoc st.tables q₀.table_id (hfq.write_page page)) tbl
            = some (hfq.write_page page)
          rw [htbl, lookupAssoc_insertAssoc_self]
        have hwlen : off + PAGE_SIZE ≤ (hfq.write_page page).file.length := by
          show off + PAGE_SIZE ≤ (writeAt hfq.file
            (page.pid.page_number * PAGE_SIZE) page.get_page_data).length
          rw [writeAt_length]
          omega
        have hwslice : ((hfq.write_page page).file.drop off).take PAGE_SIZE
            = (hfq.file.drop off).take PAGE_SIZE := by
          show ((writeAt hfq.file (page.pid.page_number * PAGE_SIZE)
            page.get_page_data).drop off).take PAGE_SIZE = _
          rw [hpid]
          rcases hq0 with hlt | hge
          · exact slice_writeAt_of_ge _ _ _ _ _ (by rw [hlen]; omega)
          · exact slice_writeAt_of_lt _ _ _ _ _ hb hge
        obtain ⟨hf', hft', hbl', hsl'⟩ := ih st₁ st' tbl off (hfq.write_page page)
          h₁ hs₁ hk₁ ht₁ hwlen
          (fun q hq => hdisj q (List.mem_cons_of_mem _ hq))
        exact ⟨hf', hft', hbl', hsl'.trans hwslice⟩
      · have ht₁ : lookupAssoc st₁.tables tbl = some hfile := by
          rw [he]
          show lookupAssoc (insertAssoc st.tables q₀.table_id (hfq.write_page page)) tbl
            = some hfile
          rw [lookupAssoc_insertAssoc_ne _ _ _ _ (fun hc => htbl hc.symm)]
          exact ht
        exact ih st₁ st' tbl off hfile h₁ hs₁ hk₁ ht₁ hb
          (fun q hq => hdisj q (List.mem_cons_of_mem _ hq))

theorem heapPageId_eq_of_fields (q q' : HeapPageId)
    (h1 : q.table_id = q'.table_id) (h2 : q.page_number = q'.page_number) :
    q = q' := by
  cases q
  cases q'
  exact congrArg₂ HeapPageId.mk h1 h2

/-- Two distinct page ids of the same table address disjoint
`PAGE_SIZE`-byte regions of the table's file. -/
theorem regions_disjoint (q q' : HeapPageId) (hne : q ≠ q')
    (htb : q.table_id = q'.table_id) :
    q.page_number * PAGE_SIZE + PAGE_SIZE ≤ q'.page_number * PAGE_SIZE
    ∨ q'.page_number * PAGE_SIZE + PAGE_SIZE ≤ q.page_number * PAGE_SIZE := by
  have hpn : q.page_number ≠ q'.page_number := by
    intro hpn
    exact hne (heapPageId_eq_of_fields q q' htb hpn)
  simp only [PAGE_SIZE]
  omega

/-- The commit fold over a duplicate-free page list: locks are untouched,
pages outside the list keep their cache entries, every surviving cache
entry is an original page or clean, and every listed page that was cached
dirty ends up cleaned (`mark_dirty(false)` + fresh before-image) in the
cache with its bytes written through to its table's file at offset
`page_number * PAGE_SIZE`. -/
theorem fold_commit (tid : Nat) (pids : List HeapPageId) :
    ∀ (st st' : Sys),
      List.foldlM (commitStep tid) st pids = some st' →
      CachePagesSized st → CacheKeysMatch st → pids.Nodup →
      st'.locks = st.locks
      ∧ (∀ q, q ∉ pids → lookupAssoc st'.cache q = lookupAssoc st.cache q)
      ∧ (∀ q page, lookupAssoc st'.cache q = some page →
          ∃ page₀, lookupAssoc st.cache q = some page₀
            ∧ (page = page₀ ∨ page.dirtied_by = none))
      ∧ (∀ q, q ∈ pids → ∀ page₀, lookupAssoc st.cache q = some page₀ →
          page₀.is_dirty = true →
          lookupAssoc st'.cache q
            = some ((page₀.mark_dirty false tid).set_before_image)
          ∧ ∃ hf', lookupAssoc st'.tables q.table_id = some hf'
            ∧ q.page_number * PAGE_SIZE + PAGE_SIZE ≤ hf'.file.length
            ∧ (hf'.file.drop (q.page_number * PAGE_SIZE)).take PAGE_SIZE
                = page₀.get_page_data) := by
  induction pids with
  | nil =>
    intro st st' h _ _ _
    rw [show List.foldlM (commitStep tid) st [] = some st from rfl] at h
    rw [← Option.some.inj h]
    exact ⟨rfl, fun q _ => rfl, fun q page hq => ⟨page, hq, Or.inl rfl⟩,
      fun q hq => absurd hq (List.not_mem_nil q)⟩
  | cons q₀ rest ih =>
    intro st st' h hs hk hnd
    rw [List.nodup_cons] at hnd
    obtain ⟨hq₀, hnd'⟩ := hnd
    obtain ⟨st₁, h₀, h₁⟩ := foldlM_some_cons _ _ _ _ _ h
    have hs₁ : CachePagesSized st₁ := commitStep_preserves_sized tid st st₁ q₀ h₀ hs
    have hk₁ : CacheKeysMatch st₁ := commitStep_preserves_keys tid st st₁ q₀ h₀ hk
    obtain ⟨ihlocks, ihframe, ihorigin, ihdirty⟩ := ih st₁ st' h₁ hs₁ hk₁ hnd'
    rcases commitStep_inv tid st q₀ st₁ h₀ with ⟨he, hclean⟩ | ⟨page, hfq, hcq, hdq, htq, he⟩
    · rw [he] at ihlocks ihframe ihorigin ihdirty
      refine ⟨ihlocks, ?_, ihorigin, ?_⟩
      · intro q hq
        exact ihframe q (fun hc => hq (List.mem_cons_of_mem _ hc))
      · intro q hq page₀ hc₀ hd₀
        rcases List.mem_cons.mp hq with hq' | hq'
        · rw [hq'] at hc₀
          rw [hclean page₀ hc₀] at hd₀
          exact Bool.noConfusion hd₀
        · exact ihdirty q hq' page₀ hc₀ hd₀
    · have hl₁ : st₁.locks = st.locks := by rw [he]
      have hc₁ : st₁.cache
          = insertAssoc st.cache q₀ ((page.mark_dirty false tid).set_before_image) := by
        rw [he]
      have ht₁ : st₁.tables
          = insertAssoc st.tables q₀.table_id (hfq.write_page page) := by
        rw [he]
      have hpid : page.pid = q₀ := hk q₀ page hcq
      have hlen : page.get_page_data.length = PAGE_SIZE := hs q₀ page hcq
      refine ⟨ihlocks.trans hl₁, ?_, ?_, ?_⟩
      · intro q hq
        have hqne : q ≠ q₀ := fun hc => hq (hc ▸ List.mem_cons_self _ _)
        have hqr : q ∉ rest := fun hc => hq (List.mem_cons_of_mem _ hc)
        rw [ihframe q hqr, hc₁, lookupAssoc_insertAssoc_ne _ _ _ _ hqne]
      · intro q page' hq'
        obtain ⟨page₁, hp₁, hor⟩ := ihorigin q page' hq'
        rw [hc₁] at hp₁
        by_cases hqe : q = q₀
        · rw [hqe, lookupAssoc_insertAssoc_self] at hp₁
          refine ⟨page, by rw [hqe]; exact hcq, Or.inr ?_⟩
          rcases hor with hor | hor
          · rw [hor, ← Option.some.inj hp₁]
            exact clean_dirtied_by page tid
          · exact hor
        · rw [lookupAssoc_insertAssoc_ne _ _ _ _ hqe] at hp₁
          exact ⟨page₁, hp₁, hor⟩
      · intro q hq page₀ hc₀ hd₀
        rcases List.mem_cons.mp hq with hq' | hq'
        · rw [hq'] at hc₀ ⊢
          have hpe : page₀ = page := Option.some.inj (hc₀.symm.trans hcq)
          rw [hpe]
          refine ⟨?_, ?_⟩
          · rw [ihframe q₀ hq₀, hc₁, lookupAssoc_insertAssoc_self]
          · have htw : lookupAssoc st₁.tables q₀.table_id
                = some (hfq.write_page page) := by
              rw [ht₁, lookupAssoc_insertAssoc_self]
            have hbw : q₀.page_number * PAGE_SIZE + PAGE_SIZE
                ≤ (hfq.write_page page).file.length := by
              show _ ≤ (writeAt hfq.file (page.pid.page_number * PAGE_SIZE)
                page.get_page_data).length
              rw [writeAt_length, hpid, hlen]
              exact le_max_left _ _
            have hdisjw : ∀ q' ∈ rest, q'.table_id = q₀.table_id →
                (q'.page_number * PAGE_SIZE + PAGE_SIZE
                    ≤ q₀.page_number * PAGE_SIZE
                  ∨ q₀.page_number * PAGE_SIZE + PAGE_SIZE
                    ≤ q'.page_number * PAGE_SIZE) := by
              intro q' hqr htb
              exact regions_disjoint q' q₀ (fun hc => hq₀ (hc ▸ hqr)) htb
            obtain ⟨hf', hft', hbl', hsl'⟩ := fold_commit_region tid rest st₁ st'
              q₀.table_id (q₀.page_number * PAGE_SIZE) (hfq.write_page page)
              h₁ hs₁ hk₁ htw hbw hdisjw
            refine ⟨hf', hft', hbl', ?_⟩
            rw [hsl']
            show ((writeAt hfq.file (page.pid.page_number * PAGE_SIZE)
                page.get_page_data).drop (q₀.page_number * PAGE_SIZE)).take PAGE_SIZE
              = page.get_page_data
            rw [hpid, ← hlen, slice_writeAt_self]
        · have hqne : q ≠ q₀ := fun hc => hq₀ (hc ▸ hq')
          have hc₀' : lookupAssoc st₁.cache q = some page₀ := by
            rw [hc₁, lookupAssoc_insertAssoc_ne _ _ _ _ hqne]
            exact hc₀
          exact ihdirty q hq' page₀ hc₀' hd₀

/-- C6: after `commit_transaction(tid)` succeeds, `pages_locked_by(tid)`
is empty, no cached page has `dirtied_by == tid`, and every page locked
by `tid` that was cached and dirty now sits in the cache with its dirty
flag cleared and its before-image snapshot equal to the newly committed
content, while the table's backing file holds exactly that page's encoded
bytes at offset `page_number * PAGE_SIZE`.  The two standing hypotheses
are the reachable-state invariants that cached pages encode to
`PAGE_SIZE` bytes and are keyed by their own id, and that a page with
`dirtied_by == tid` is locked by `tid` (pages are only dirtied through a
write-locked `get_page` handle). -/
theorem commit_transaction_spec (s s' : Sys) (tid : Nat)
    (hc : BufferPool.commit_transaction s tid = some s')
    (hs : CachePagesSized s) (hk : CacheKeysMatch s)
    (hDirtyLocked : ∀ q page, lookupAssoc s.cache q = some page →
      page.dirtied_by = some tid → q ∈ get_locked_pages s.locks tid) :
    get_locked_pages s'.locks tid = []
    ∧ (∀ q page, lookupAssoc s'.cache q = some page →
        page.dirtied_by ≠ some tid)
    ∧ (∀ q, q ∈ get_locked_pages s.locks tid →
        ∀ page₀, lookupAssoc s.cache q = some page₀ →
          page₀.is_dirty = true →
          lookupAssoc s'.cache q
            = some ((page₀.mark_dirty false tid).set_before_image)
          ∧ ((page₀.mark_dirty false tid).set_before_image).dirtied_by = none
          ∧ ((page₀.mark_dirty false tid).set_before_image).old_data
              = page₀.get_page_data
          ∧ ∃ hf', lookupAssoc s'.tables q.table_id = some hf'
              ∧ (hf'.file.drop (q.page_number * PAGE_SIZE)).take PAGE_SIZE
                  = page₀.get_page_data) := by
  unfold BufferPool.commit_transaction at hc
  cases hf : (get_locked_pages s.locks tid).foldlM (commitStep tid) s with
  | none =>
    rw [hf] at hc
    exact Option.noConfusion hc
  | some st =>
    rw [hf] at hc
    have hse : s' = { st with locks := release_locks st.locks tid } :=
      (Option.some.inj hc).symm
    obtain ⟨hlocks, hframe, horigin, hdirty⟩ :=
      fold_commit tid (get_locked_pages s.locks tid) s st hf hs hk
        (List.nodup_dedup _)
    refine ⟨?_, ?_, ?_⟩
    · rw [hse]
      exact get_locked_pages_release st.locks tid
    · intro q page' hq' hdtid
      have hq'' : lookupAssoc st.cache q = some page' := by
        rw [hse] at hq'
        exact hq'
      obtain ⟨page₀, hc₀, hor⟩ := horigin q page' hq''
      rcases hor with heq | hnone
      · rw [heq] at hdtid
        have hd₀ : page₀.is_dirty = true := by
          show page₀.dirtied_by.isSome = true
          rw [hdtid]
          rfl
        have hmem : q ∈ get_locked_pages s.locks tid :=
          hDirtyLocked q page₀ hc₀ hdtid
        obtain ⟨hcache, -⟩ := hdirty q hmem page₀ hc₀ hd₀
        rw [hq''] at hcache
        have h1 : page' = (page₀.mark_dirty false tid).set_before_image :=
          Option.some.inj hcache
        rw [heq] at h1
        rw [h1, clean_dirtied_by] at hdtid
        exact Option.noConfusion hdtid
      · rw [hnone] at hdtid
        exact Option.noConfusion hdtid
    · intro q hmem page₀ hc₀ hd₀
      obtain ⟨hcache, hf', hft', -, hsl'⟩ := hdirty q hmem page₀ hc₀ hd₀
      refine ⟨?_, clean_dirtied_by page₀ tid, clean_old_data page₀ tid,
        hf', ?_, hsl'⟩
      · rw [hse]
        exact hcache
      · rw [hse]
        exact hft'

def sysE : Sys := ⟨[], [], []⟩

/-! ### Encode/decode round-trip (C5) -/

theorem slice_append_right {α : Type} (A B : List α) (off n : Nat)
    (h : A.length ≤ off) :
    ((A ++ B).drop off).take n = (B.drop (off - A.length)).take n := by
  rw [List.drop_append_eq_append_drop, List.drop_eq_nil_of_le h, List.nil_append]

/-- Inversion of the page decoder: a successful decode fixes every field
of the resulting page. -/
theorem HeapPage.new_inv (pid : HeapPageId) (data : List Nat) (td : TupleDesc)
    (P : HeapPage) (h : HeapPage.new pid data td = some P) :
    ¬ data.length < (PAGE_SIZE * 8 / (td.get_size * 8 + 1) + 7) / 8
    ∧ decodeSlots data (data.take ((PAGE_SIZE * 8 / (td.get_size * 8 + 1) + 7) / 8))
        ((PAGE_SIZE * 8 / (td.get_size * 8 + 1) + 7) / 8) td.get_size td
        (List.range (PAGE_SIZE * 8 / (td.get_size * 8 + 1))) = some P.tuples
    ∧ P = ⟨pid, td, (PAGE_SIZE * 8 / (td.get_size * 8 + 1) + 7) / 8,
        data.take ((PAGE_SIZE * 8 / (td.get_size * 8 + 1) + 7) / 8), P.tuples,
        PAGE_SIZE * 8 / (td.get_size * 8 + 1), List.replicate PAGE_SIZE 0, none⟩ := by
  unfold HeapPage.new at h
  simp only [] at h
  by_cases h1 : data.length < (PAGE_SIZE * 8 / (td.get_size * 8 + 1) + 7) / 8
  · rw [if_pos h1] at h
    exact Option.noConfusion h
  · rw [if_neg h1] at h
    cases h2 : decodeSlots data
        (data.take ((PAGE_SIZE * 8 / (td.get_size * 8 + 1) + 7) / 8))
        ((PAGE_SIZE * 8 / (td.get_size * 8 + 1) + 7) / 8) td.get_size td
        (List.range (PAGE_SIZE * 8 / (td.get_size * 8 + 1))) with
    | none =>
      rw [h2] at h
      exact Option.noConfusion h
    | some tuples =>
      rw [h2] at h
      have he : (⟨pid, td, (PAGE_SIZE * 8 / (td.get_size * 8 + 1) + 7) / 8,
          data.take ((PAGE_SIZE * 8 / (td.get_size * 8 + 1) + 7) / 8), tuples,
          PAGE_SIZE * 8 / (td.get_size * 8 + 1), List.replicate PAGE_SIZE 0,
          none⟩ : HeapPage) = P := Option.some.inj h
      have htup : P.tuples = tuples := by rw [← he]
      refine ⟨h1, ?_, ?_⟩
      · rw [htup]
      · rw [htup, ← he]

/-- The conditions under which a field value survives a
serialize-then-parse round trip under a given column type: the kinds
match, an int's 32-bit pattern is in range, and a string's stored length
prefix equals its content length, is bounded by `STRING_SIZE`, and the
content is valid UTF-8.  Every field produced by a successful parse of
byte-valued input satisfies all of it except possibly the `STRING_SIZE`
bound. -/
def FieldOk : Ty → FieldVal → Prop
  | .int, .intField f => f.value < 2 ^ 32
  | .string, .stringField f =>
      f.len = f.value.length ∧ f.value.length ≤ STRING_SIZE
        ∧ validUtf8 f.value = true
  | _, _ => False

/-- Evaluation rule for `Type::parse` on `IntType`. -/
theorem parse_int_eval (bytes : List Nat) :
    Ty.parse .int bytes
      = if bytes.length < 4 then ParseRes.fatal
        else ParseRes.ok (.intField ⟨fromBe4 bytes⟩) := rfl

/-- Evaluation rule for `Type::parse` on `StringType`. -/
theorem parse_string_eval (bytes : List Nat) :
    Ty.parse .string bytes
      = if bytes.length < 4 then ParseRes.fatal
        else if bytes.length < fromBe4 bytes + 4 then ParseRes.fatal
        else if validUtf8 ((bytes.drop 4).take (fromBe4 bytes)) = true then
          ParseRes.ok (.stringField ⟨(bytes.drop 4).take (fromBe4 bytes), fromBe4 bytes⟩)
        else ParseRes.fatal := rfl

theorem parseOpt_some (t : Ty) (bytes : List Nat) (f : FieldVal)
    (h : t.parseOpt bytes = some f) : t.parse bytes = ParseRes.ok f := by
  unfold Ty.parseOpt at h
  cases hp : t.parse bytes with
  | ok v =>
    rw [hp] at h
    exact congrArg ParseRes.ok (Option.some.inj h)
  | err =>
    rw [hp] at h
    exact Option.noConfusion h
  | fatal =>
    rw [hp] at h
    exact Option.noConfusion h

/-- A successful parse of byte-valued input yields a round-trippable
field, provided its length (for strings) is bounded by `STRING_SIZE`. -/
theorem parse_ok_fieldOk (t : Ty) (bytes : List Nat) (f : FieldVal)
    (h : t.parse bytes = ParseRes.ok f) (hbb : ∀ b ∈ bytes, b < 256)
    (hssf : ∀ sf, f = FieldVal.stringField sf → sf.value.length ≤ STRING_SIZE) :
    FieldOk t f := by
  cases t with
  | int =>
    have h' : (if bytes.length < 4 then ParseRes.fatal
        else ParseRes.ok (FieldVal.intField ⟨fromBe4 bytes⟩)) = ParseRes.ok f := h
    by_cases h1 : bytes.length < 4
    · rw [if_pos h1] at h'
      exact ParseRes.noConfusion h'
    · rw [if_neg h1] at h'
      have hf : FieldVal.intField ⟨fromBe4 bytes⟩ = f := ParseRes.ok.inj h'
      rw [← hf]
      show fromBe4 bytes < 2 ^ 32
      exact fromBe4_lt bytes hbb
  | string =>
    have h' : (if bytes.length < 4 then ParseRes.fatal
        else if bytes.length < fromBe4 bytes + 4 then ParseRes.fatal
        else if validUtf8 ((bytes.drop 4).take (fromBe4 bytes)) = true then
          ParseRes.ok (FieldVal.stringField
            ⟨(bytes.drop 4).take (fromBe4 bytes), fromBe4 bytes⟩)
        else ParseRes.fatal) = ParseRes.ok f := h
    by_cases h1 : bytes.length < 4
    · rw [if_pos h1] at h'
      exact ParseRes.noConfusion h'
    · rw [if_neg h1] at h'
      by_cases h2 : bytes.length < fromBe4 bytes + 4
      · rw [if_pos h2] at h'
        exact ParseRes.noConfusion h'
      · rw [if_neg h2] at h'
        by_cases h3 : validUtf8 ((bytes.drop 4).take (fromBe4 bytes)) = true
        · rw [if_pos h3] at h'
          have hf : FieldVal.stringField
              ⟨(bytes.drop 4).take (fromBe4 bytes), fromBe4 bytes⟩ = f :=
            ParseRes.ok.inj h'
          rw [← hf]
          refine ⟨?_, ?_, h3⟩
          · show fromBe4 bytes = ((bytes.drop 4).take (fromBe4 bytes)).length
            rw [List.length_take, List.length_drop]
            omega
          · exact hssf _ hf.symm
        · rw [if_neg h3] at h'
          exact ParseRes.noConfusion h'

theorem fserialize_length_of_fieldOk (t : Ty) (f : FieldVal) (h : FieldOk t f) :
    f.fserialize.length = t.get_len := by
  cases t with
  | int =>
    cases f with
    | intField g => rfl
    | stringField g => exact False.elim h
  | string =>
    cases f with
    | intField g => exact False.elim h
    | stringField g =>
      show (toBe4 g.len ++ g.value.take STRING_SIZE
          ++ List.replicate (STRING_SIZE - min g.value.length STRING_SIZE) 0).length
        = STRING_SIZE + 4
      rw [List.length_append, List.length_append, List.length_take,
        show (toBe4 g.len).length = 4 from rfl, List.length_replicate]
      omega

/-- Field-level round trip: parsing a serialized round-trippable field
(with arbitrary trailing bytes) gives the field back. -/
theorem parse_fserialize (t : Ty) (f : FieldVal) (rest : List Nat)
    (h : FieldOk t f) : t.parse (f.fserialize ++ rest) = ParseRes.ok f := by
  cases t with
  | int =>
    cases f with
    | intField g =>
      have h4 : ¬ (toBe4 g.value ++ rest).length < 4 := by
        rw [List.length_append, show (toBe4 g.value).length = 4 from rfl]
        omega
      rw [show (FieldVal.intField g).fserialize = toBe4 g.value from rfl,
        parse_int_eval, if_neg h4, fromBe4_toBe4 g.value rest h]
    | stringField g => exact False.elim h
  | string =>
    cases f with
    | intField g => exact False.elim h
    | stringField g =>
      obtain ⟨h1, h2, h3⟩ := h
      have hB : (FieldVal.stringField g).fserialize ++ rest
          = toBe4 g.len ++ (g.value
              ++ (List.replicate (STRING_SIZE - g.value.length) 0 ++ rest)) := by
        show toBe4 g.len ++ g.value.take STRING_SIZE
            ++ List.replicate (STRING_SIZE - min g.value.length STRING_SIZE) 0
            ++ rest = _
        rw [List.take_of_length_le h2, min_eq_left h2, List.append_assoc,
          List.append_assoc]
      rw [hB]
      have hglen : g.len < 2 ^ 32 := by
        rw [h1]
        calc g.value.length ≤ STRING_SIZE := h2
          _ < 2 ^ 32 := by decide
      have hfrom : fromBe4 (toBe4 g.len ++ (g.value
          ++ (List.replicate (STRING_SIZE - g.value.length) 0 ++ rest)))
          = g.len := fromBe4_toBe4 _ _ hglen
      have hlen : (toBe4 g.len ++ (g.value
          ++ (List.replicate (STRING_SIZE - g.value.length) 0 ++ rest))).length
          = 4 + (g.value.length + ((STRING_SIZE - g.value.length) + rest.length)) := by
        rw [List.length_append, List.length_append, List.length_append,
          List.length_replicate, show (toBe4 g.len).length = 4 from rfl]
      have hdrop : (toBe4 g.len ++ (g.value
          ++ (List.replicate (STRING_SIZE - g.value.length) 0 ++ rest))).drop 4
          = g.value ++ (List.replicate (STRING_SIZE - g.value.length) 0 ++ rest) := by
        rw [show (4 : Nat) = (toBe4 g.len).length from rfl, List.drop_left]
      have htake : (g.value ++ (List.replicate (STRING_SIZE - g.value.length) 0
          ++ rest)).take g.len = g.value := by
        rw [h1]
        exact List.take_left _ _
      have h4 : ¬ (toBe4 g.len ++ (g.value
          ++ (List.replicate (STRING_SIZE - g.value.length) 0 ++ rest))).length < 4 := by
        rw [hlen]
        omega
      have h5 : ¬ (toBe4 g.len ++ (g.value
          ++ (List.replicate (STRING_SIZE - g.value.length) 0 ++ rest))).length
          < g.len + 4 := by
        rw [hlen, h1]
        omega
      rw [parse_string_eval, hfrom, if_neg h4, if_neg h5, hdrop, htake, if_pos h3]

/-- Tuple-level round trip: parsing the serialization of a list of
round-trippable fields (with arbitrary trailing bytes) gives the fields
back. -/
theorem parseFields_serializeFields (tys : List Ty) (fs : List FieldVal)
    (rest : List Nat) (h : List.Forall₂ FieldOk tys fs) :
    parseFields tys (serializeFields fs ++ rest) = some fs := by
  induction h generalizing rest with
  | nil => rfl
  | cons hf hfs ih =>
    rename_i t f tys' fs'
    have hlen := fserialize_length_of_fieldOk t f hf
    have hbytes : serializeFields (f :: fs') ++ rest
        = f.fserialize ++ (serializeFields fs' ++ rest) := by
      rw [show serializeFields (f :: fs') = f.fserialize ++ serializeFields fs'
        from rfl, List.append_assoc]
    rw [hbytes]
    have hpo : t.parseOpt (f.fserialize ++ (serializeFields fs' ++ rest))
        = some f := by
      unfold Ty.parseOpt
      rw [parse_fserialize t f (serializeFields fs' ++ rest) hf]
    have hdrop : (f.fserialize ++ (serializeFields fs' ++ rest)).drop t.get_len
        = serializeFields fs' ++ rest := by
      rw [← hlen, List.drop_left]
    simp only [parseFields, hpo]
    rw [hdrop, ih rest]

theorem deserialize_serializeFields (td : TupleDesc) (fs : List FieldVal)
    (h : List.Forall₂ FieldOk td.types fs) :
    Tuple.deserialize (serializeFields fs) td = some (Tuple.new fs td) := by
  unfold Tuple.deserialize
  rw [show serializeFields fs = serializeFields fs ++ [] from
    (List.append_nil _).symm, parseFields_serializeFields td.types fs [] h]
  rfl

/-- Inversion of `Tuple::deserialize`. -/
theorem deserialize_inv (bytes : List Nat) (td : TupleDesc) (tup : Tuple)
    (h : Tuple.deserialize bytes td = some tup) :
    parseFields td.types bytes = some tup.fields
    ∧ tup = Tuple.new tup.fields td := by
  unfold Tuple.deserialize at h
  cases hp : parseFields td.types bytes with
  | none =>
    rw [hp] at h
    exact Option.noConfusion h
  | some fs =>
    rw [hp] at h
    have he : Tuple.new fs td = tup := Option.some.inj h
    have hfields : tup.fields = fs := congrArg Tuple.fields he.symm
    refine ⟨?_, ?_⟩
    · rw [hfields]
    · rw [hfields, ← he]

/-- Every field produced by a successful `parseFields` run over
byte-valued input whose string fields respect the `STRING_SIZE` bound is
round-trippable. -/
theorem parseFields_fieldOk :
    ∀ (tys : List Ty) (bytes : List Nat) (fs : List FieldVal),
      parseFields tys bytes = some fs → (∀ b ∈ bytes, b < 256) →
      (∀ f ∈ fs, ∀ sf, f = FieldVal.stringField sf →
        sf.value.length ≤ STRING_SIZE) →
      List.Forall₂ FieldOk tys fs := by
  intro tys
  induction tys with
  | nil =>
    intro bytes fs h _ _
    rw [show parseFields [] bytes = some [] from rfl] at h
    rw [← Option.some.inj h]
    exact List.Forall₂.nil
  | cons t ts ih =>
    intro bytes fs h hbb hss
    unfold parseFields at h
    cases hp : t.parseOpt bytes with
    | none =>
      rw [hp] at h
      exact Option.noConfusion h
    | some f =>
      rw [hp] at h
      cases hq : parseFields ts (bytes.drop t.get_len) with
      | none =>
        rw [hq] at h
        exact Option.noConfusion h
      | some fs' =>
        rw [hq] at h
        have he : f :: fs' = fs := Option.some.inj h
        rw [← he]
        refine List.Forall₂.cons ?_ ?_
        · refine parse_ok_fieldOk t bytes f (parseOpt_some t bytes f hp) hbb ?_
          intro sf hsf
          refine hss f ?_ sf hsf
          rw [← he]
          exact List.mem_cons_self f fs'
        · refine ih (bytes.drop t.get_len) fs' hq ?_ ?_
          · intro b hbm
            exact hbb b (List.mem_of_mem_drop hbm)
          · intro f' hf' sf hsf
            refine hss f' ?_ sf hsf
            rw [← he]
            exact List.mem_cons_of_mem f hf'

theorem serializeFields_length (tys : List Ty) (fs : List FieldVal)
    (h : List.Forall₂ FieldOk tys fs) :
    ∀ acc, acc + (serializeFields fs).length
      = tys.foldl (fun acc t => acc + t.get_len) acc := by
  induction h with
  | nil =>
    intro acc
    show acc + ([] : List Nat).length = acc
    rw [List.length_nil]
    omega
  | cons hf hfs ih =>
    rename_i t f tys' fs'
    intro acc
    show acc + (f.fserialize ++ serializeFields fs').length
      = (t :: tys').foldl (fun acc t => acc + t.get_len) acc
    rw [List.length_append, fserialize_length_of_fieldOk t f hf,
      show (t :: tys').foldl (fun acc t => acc + t.get_len) acc
        = tys'.foldl (fun acc t => acc + t.get_len) (acc + t.get_len) from rfl,
      ← ih (acc + t.get_len)]
    omega

theorem slotBytes_cons (P : HeapPage) (i : Nat) (is : List Nat) :
    slotBytes P (i :: is)
      = (if get_slot P.header i
          then (P.tuples.getD i (Tuple.new [] P.td)).serialize
          else List.replicate P.td.get_size 0) ++ slotBytes P is := by
  conv_lhs => unfold slotBytes

theorem slotBytes_append (P : HeapPage) (l₁ l₂ : List Nat) :
    slotBytes P (l₁ ++ l₂) = slotBytes P l₁ ++ slotBytes P l₂ := by
  induction l₁ with
  | nil => rfl
  | cons i is ih =>
    rw [List.cons_append, slotBytes_cons, slotBytes_cons, ih, List.append_assoc]

theorem slotBytes_length (P : HeapPage) (l : List Nat)
    (hocc : ∀ i ∈ l, get_slot P.header i = true →
      (P.tuples.getD i (Tuple.new [] P.td)).serialize.length = P.td.get_size) :
    (slotBytes P l).length = l.length * P.td.get_size := by
  induction l with
  | nil => exact (Nat.zero_mul _).symm
  | cons i is ih =>
    rw [slotBytes_cons, List.length_append, List.length_cons,
      ih (fun j hj => hocc j (List.mem_cons_of_mem i hj))]
    by_cases hi : get_slot P.header i = true
    · rw [if_pos hi, hocc i (List.mem_cons_self i is) hi, Nat.succ_mul]
      ring
    · rw [if_neg hi, List.length_replicate, Nat.succ_mul]
      ring

theorem slotBytes_range_split (P : HeapPage) (i : Nat) :
    ∀ ns, i < ns → ∃ B₂, slotBytes P (List.range ns)
      = slotBytes P (List.range i)
        ++ ((if get_slot P.header i
              then (P.tuples.getD i (Tuple.new [] P.td)).serialize
              else List.replicate P.td.get_size 0) ++ B₂) := by
  intro ns
  induction ns with
  | zero => intro h; exact absurd h (Nat.not_lt_zero i)
  | succ n ih =>
    intro h
    rcases Nat.lt_or_ge i n with hin | hin
    · obtain ⟨B₂, hB⟩ := ih hin
      refine ⟨B₂ ++ slotBytes P [n], ?_⟩
      rw [List.range_succ, slotBytes_append, hB,
        List.append_assoc (slotBytes P (List.range i)),
        List.append_assoc]
    · have hi : i = n := by omega
      subst hi
      refine ⟨[], ?_⟩
      rw [List.range_succ, slotBytes_append, slotBytes_cons,
        show slotBytes P [] = [] from rfl]

theorem map_getD_range (ts : List Tuple) (d : Tuple) :
    (List.range ts.length).map (fun i => ts.getD i d) = ts := by
  apply List.ext_getElem
  · rw [List.length_map, List.length_range]
  · intro n h1 h2
    rw [List.getElem_map, List.getElem_range,
      List.getD_eq_getElem ts d h2]

/-- Inversion of the slot-decoding loop: it fixes the result length and
characterizes each entry by its slot's header bit. -/
theorem decodeSlots_inv (data header : List Nat) (hsz sz : Nat)
    (td : TupleDesc) :
    ∀ (l : List Nat) (ts : List Tuple),
      decodeSlots data header hsz sz td l = some ts →
      ts.length = l.length
      ∧ ∀ k, k < l.length →
          (get_slot header (l.getD k 0) = true →
            Tuple.deserialize ((data.drop (hsz + l.getD k 0 * sz)).take sz) td
              = some (ts.getD k (Tuple.new [] td)))
          ∧ (get_slot header (l.getD k 0) = false →
            ts.getD k (Tuple.new [] td) = Tuple.new [] td) := by
  intro l
  induction l with
  | nil =>
    intro ts h
    rw [show decodeSlots data header hsz sz td [] = some [] from rfl] at h
    rw [← Option.some.inj h]
    exact ⟨rfl, fun k hk => absurd hk (Nat.not_lt_zero k)⟩
  | cons i is ih =>
    intro ts h
    unfold decodeSlots at h
    by_cases hi : get_slot header i = true
    · rw [if_pos hi] at h
      by_cases hlen : data.length < hsz + i * sz + sz
      · rw [if_pos hlen] at h
        exact Option.noConfusion h
      · rw [if_neg hlen] at h
        cases hd : Tuple.deserialize ((data.drop (hsz + i * sz)).take sz) td with
        | none =>
          rw [hd] at h
          exact Option.noConfusion h
        | some t =>
          rw [hd] at h
          cases hrec : decodeSlots data header hsz sz td is with
          | none =>
            rw [hrec] at h
            exact Option.noConfusion h
          | some ts' =>
            rw [hrec] at h
            have hts : t :: ts' = ts := Option.some.inj h
            obtain ⟨ihlen, ihk⟩ := ih ts' hrec
            rw [← hts]
            refine ⟨by rw [List.length_cons, List.length_cons, ihlen], ?_⟩
            intro k hk
            cases k with
            | zero =>
              refine ⟨fun _ => hd, fun hfree => ?_⟩
              have hfree' : get_slot header i = false := hfree
              rw [hi] at hfree'
              exact Bool.noConfusion hfree'
            | succ k' =>
              have hk' : k' < is.length := by
                rw [List.length_cons] at hk
                omega
              exact ihk k' hk'
    · have hi' : get_slot header i = false := by
        rw [← Bool.not_eq_true]
        exact hi
      rw [if_neg hi] at h
      cases hrec : decodeSlots data header hsz sz td is with
      | none =>
        rw [hrec] at h
        exact Option.noConfusion h
      | some ts' =>
        rw [hrec] at h
        have hts : Tuple.new [] td :: ts' = ts := Option.some.inj h
        obtain ⟨ihlen, ihk⟩ := ih ts' hrec
        rw [← hts]
        refine ⟨by rw [List.length_cons, List.length_cons, ihlen], ?_⟩
        intro k hk
        cases k with
        | zero =>
          refine ⟨fun hocc => ?_, fun _ => rfl⟩
          have hocc' : get_slot header i = true := hocc
          rw [hi'] at hocc'
          exact Bool.noConfusion hocc'
        | succ k' =>
          have hk' : k' < is.length := by
            rw [List.length_cons] at hk
            omega
          exact ihk k' hk'

/-- Running the slot-decoding loop over re-encoded bytes reproduces the
tuple list, slot by slot. -/
theorem decodeSlots_encode (E header : List Nat) (hsz sz : Nat)
    (td : TupleDesc) (ts : List Tuple) (d : Tuple) :
    ∀ l : List Nat,
      (∀ i ∈ l, ¬ E.length < hsz + i * sz + sz) →
      (∀ i ∈ l, get_slot header i = true →
        Tuple.deserialize ((E.drop (hsz + i * sz)).take sz) td
          = some (ts.getD i d)) →
      (∀ i ∈ l, get_slot header i = false → ts.getD i d = Tuple.new [] td) →
      decodeSlots E header hsz sz td l = some (l.map fun i => ts.getD i d) := by
  intro l
  induction l with
  | nil => intro _ _ _; rfl
  | cons i is ih =>
    intro hb hocc hfree
    have hrec := ih (fun j hj => hb j (List.mem_cons_of_mem i hj))
      (fun j hj => hocc j (List.mem_cons_of_mem i hj))
      (fun j hj => hfree j (List.mem_cons_of_mem i hj))
    by_cases hi : get_slot header i = true
    · rw [decodeSlots_cons_occupied E header hsz sz td i is hi
        (hb i (List.mem_cons_self i is))]
      rw [hocc i (List.mem_cons_self i is) hi, hrec, List.map_cons]
    · have hi' : get_slot header i = false := by
        rw [← Bool.not_eq_true]
        exact hi
      conv_lhs => unfold decodeSlots
      rw [if_neg hi, hrec, List.map_cons,
        hfree i (List.mem_cons_self i is) hi']

/-- The header and the slot region of a page never overflow `PAGE_SIZE`:
`header_size + num_slots * tuple_size ≤ PAGE_SIZE`. -/
theorem header_slots_le_PAGE_SIZE (td : TupleDesc) :
    (PAGE_SIZE * 8 / (td.get_size * 8 + 1) + 7) / 8
      + PAGE_SIZE * 8 / (td.get_size * 8 + 1) * td.get_size ≤ PAGE_SIZE := by
  have h1 : PAGE_SIZE * 8 / (td.get_size * 8 + 1) * (td.get_size * 8 + 1)
      ≤ PAGE_SIZE * 8 := Nat.div_mul_le_self _ _
  have h3 : PAGE_SIZE * 8 / (td.get_size * 8 + 1) * (td.get_size * 8 + 1)
      = PAGE_SIZE * 8 / (td.get_size * 8 + 1) * td.get_size * 8
        + PAGE_SIZE * 8 / (td.get_size * 8 + 1) := by ring
  rw [h3] at h1
  obtain ⟨n, hn⟩ : ∃ n, PAGE_SIZE * 8 / (td.get_size * 8 + 1) = n := ⟨_, rfl⟩
  rw [hn] at h1 ⊢
  obtain ⟨m, hm⟩ : ∃ m, n * td.get_size = m := ⟨_, rfl⟩
  rw [hm] at h1 ⊢
  omega

/-- C5 (amended theorem): for every page `P` that is itself the result of
a decode of byte-valued input (`HeapPage::new`) and all of whose string
fields respect the `STRING_SIZE` bound on the declared length, decoding
the encoding of `P` reproduces `P` exactly:
`decode(P.id, encode(P), P.td) = P`. -/
theorem decode_encode_roundtrip (pid : HeapPageId) (data : List Nat)
    (td : TupleDesc) (P : HeapPage)
    (hP : HeapPage.new pid data td = some P)
    (hb : ∀ b ∈ data, b < 256)
    (hss : ∀ t ∈ P.tuples, ∀ f ∈ t.fields, ∀ sf, f = FieldVal.stringField sf →
      sf.value.length ≤ STRING_SIZE) :
    HeapPage.new P.pid P.get_page_data P.td = some P := by
  obtain ⟨hnlt, hdec, hPs⟩ := HeapPage.new_inv pid data td P hP
  have htdP : P.td = td := by rw [hPs]
  have hnsP : P.num_slots = PAGE_SIZE * 8 / (P.td.get_size * 8 + 1) := by
    rw [hPs]
  have hhszP : P.header_size = (P.num_slots + 7) / 8 := by rw [hPs]
  have hhszF : P.header_size
      = (PAGE_SIZE * 8 / (P.td.get_size * 8 + 1) + 7) / 8 := by
    rw [hhszP, hnsP]
  have hheaderP : P.header = data.take P.header_size := by rw [hPs]
  have hod : P.old_data = List.replicate PAGE_SIZE 0 := by rw [hPs]
  have hdb : P.dirtied_by = none := by rw [hPs]
  have hnlt' : ¬ data.length < P.header_size := by
    rw [hhszF, htdP]
    exact hnlt
  have hhl : P.header.length = P.header_size := by
    rw [hheaderP, List.length_take]
    omega
  have hdecP : decodeSlots data P.header P.header_size P.td.get_size P.td
      (List.range P.num_slots) = some P.tuples := by
    rw [hheaderP, hhszP, hnsP, htdP]
    exact hdec
  obtain ⟨hlen0, hk0⟩ := decodeSlots_inv data P.header P.header_size
    P.td.get_size P.td (List.range P.num_slots) P.tuples hdecP
  have hlenP : P.tuples.length = P.num_slots := by
    rw [hlen0, List.length_range]
  have hrget : ∀ k, k < P.num_slots → (List.range P.num_slots).getD k 0 = k := by
    intro k hk
    rw [List.getD_eq_getElem _ _ (by rw [List.length_range]; exact hk),
      List.getElem_range]
  have hK : ∀ i, i < P.num_slots →
      (get_slot P.header i = true →
        Tuple.deserialize ((data.drop (P.header_size + i * P.td.get_size)).take
          P.td.get_size) P.td = some (P.tuples.getD i (Tuple.new [] P.td)))
      ∧ (get_slot P.header i = false →
        P.tuples.getD i (Tuple.new [] P.td) = Tuple.new [] P.td) := by
    intro i hi
    have hh := hk0 i (by rw [List.length_range]; exact hi)
    rw [hrget i hi] at hh
    exact hh
  have hF : ∀ i, i < P.num_slots → get_slot P.header i = true →
      List.Forall₂ FieldOk P.td.types
        (P.tuples.getD i (Tuple.new [] P.td)).fields
      ∧ P.tuples.getD i (Tuple.new [] P.td)
          = Tuple.new (P.tuples.getD i (Tuple.new [] P.td)).fields P.td := by
    intro i hi hocc
    obtain ⟨hpf, hcan⟩ := deserialize_inv _ _ _ ((hK i hi).1 hocc)
    refine ⟨?_, hcan⟩
    refine parseFields_fieldOk P.td.types _ _ hpf ?_ ?_
    · intro b hbm
      exact hb b (List.mem_of_mem_drop (List.mem_of_mem_take hbm))
    · intro f hf sf hsf
      refine hss (P.tuples.getD i (Tuple.new [] P.td)) ?_ f hf sf hsf
      rw [List.getD_eq_getElem _ _ (by rw [hlenP]; exact hi)]
      exact List.getElem_mem _
  have hserlen : ∀ i, i < P.num_slots → get_slot P.header i = true →
      (P.tuples.getD i (Tuple.new [] P.td)).serialize.length
        = P.td.get_size := by
    intro i hi hocc
    have h0 := serializeFields_length P.td.types
      (P.tuples.getD i (Tuple.new [] P.td)).fields (hF i hi hocc).1 0
    show (serializeFields (P.tuples.getD i (Tuple.new [] P.td)).fields).length
      = P.td.get_size
    rw [show P.td.get_size
        = P.td.types.foldl (fun acc t => acc + t.get_len) 0 from rfl, ← h0]
    omega
  have hSBlen : (slotBytes P (List.range P.num_slots)).length
      = P.num_slots * P.td.get_size := by
    rw [slotBytes_length P (List.range P.num_slots)
      (fun i hi => hserlen i (List.mem_range.mp hi)), List.length_range]
  have hars : P.header_size + P.num_slots * P.td.get_size ≤ PAGE_SIZE := by
    rw [hhszP, hnsP]
    exact header_slots_le_PAGE_SIZE P.td
  have hdlen : (P.header ++ slotBytes P (List.range P.num_slots)).length
      = P.header_size + P.num_slots * P.td.get_size := by
    rw [List.length_append, hhl, hSBlen]
  have hE_eq : P.get_page_data
      = P.header ++ (slotBytes P (List.range P.num_slots)
          ++ List.replicate (PAGE_SIZE
              - (P.header ++ slotBytes P (List.range P.num_slots)).length) 0) := by
    unfold HeapPage.get_page_data
    simp only []
    rw [List.append_assoc]
  have hE_len : P.get_page_data.length = PAGE_SIZE := by
    rw [hE_eq, List.length_append, List.length_append, List.length_replicate,
      hhl, hSBlen, hdlen]
    have hars2 := hars
    obtain ⟨m, hm⟩ : ∃ m, P.num_slots * P.td.get_size = m := ⟨_, rfl⟩
    rw [hm] at hars2 ⊢
    omega
  have hle : ∀ i, i < P.num_slots →
      P.header_size + i * P.td.get_size + P.td.get_size ≤ PAGE_SIZE := by
    intro i hi
    have h1 : (i + 1) * P.td.get_size ≤ P.num_slots * P.td.get_size :=
      mul_le_mul_right' (Nat.succ_le_of_lt hi) P.td.get_size
    calc P.header_size + i * P.td.get_size + P.td.get_size
        = P.header_size + (i + 1) * P.td.get_size := by ring
      _ ≤ P.header_size + P.num_slots * P.td.get_size :=
          Nat.add_le_add_left h1 _
      _ ≤ PAGE_SIZE := hars
  have hbE : ∀ i ∈ List.range P.num_slots,
      ¬ P.get_page_data.length
        < P.header_size + i * P.td.get_size + P.td.get_size := by
    intro i hi
    rw [hE_len]
    have := hle i (List.mem_range.mp hi)
    omega
  have hslice : ∀ i, i < P.num_slots →
      (P.get_page_data.drop (P.header_size + i * P.td.get_size)).take
        P.td.get_size
      = (if get_slot P.header i
          then (P.tuples.getD i (Tuple.new [] P.td)).serialize
          else List.replicate P.td.get_size 0) := by
    intro i hi
    obtain ⟨B₂, hB⟩ := slotBytes_range_split P i P.num_slots hi
    have hleni : (slotBytes P (List.range i)).length = i * P.td.get_size := by
      rw [slotBytes_length P (List.range i)
        (fun j hj => hserlen j (Nat.lt_trans (List.mem_range.mp hj) hi)),
        List.length_range]
    have hcond : P.header.length ≤ P.header_size + i * P.td.get_size := by
      rw [hhl]
      exact Nat.le_add_right _ _
    rw [hE_eq, slice_append_right _ _ _ _ hcond, hhl,
      Nat.add_sub_cancel_left, hB, List.append_assoc, ← hleni, List.drop_left,
      List.append_assoc]
    obtain ⟨blk, hg⟩ : ∃ blk, (if get_slot P.header i
        then (P.tuples.getD i (Tuple.new [] P.td)).serialize
        else List.replicate P.td.get_size 0) = blk := ⟨_, rfl⟩
    rw [hg]
    have hblen : blk.length = P.td.get_size := by
      rw [← hg]
      by_cases hocc : get_slot P.header i = true
      · rw [if_pos hocc]
        exact hserlen i hi hocc
      · rw [if_neg hocc, List.length_replicate]
    rw [List.take_append_eq_append_take, List.take_of_length_le (le_of_eq hblen),
      show P.td.get_size - blk.length = 0 from by rw [hblen]; omega,
      List.take_zero, List.append_nil]
  have hoccE : ∀ i ∈ List.range P.num_slots, get_slot P.header i = true →
      Tuple.deserialize ((P.get_page_data.drop (P.header_size
        + i * P.td.get_size)).take P.td.get_size) P.td
      = some (P.tuples.getD i (Tuple.new [] P.td)) := by
    intro i hi hocc
    have himem := List.mem_range.mp hi
    rw [hslice i himem, if_pos hocc]
    obtain ⟨hFi, hcan⟩ := hF i himem hocc
    rw [show (P.tuples.getD i (Tuple.new [] P.td)).serialize
        = serializeFields (P.tuples.getD i (Tuple.new [] P.td)).fields from rfl,
      deserialize_serializeFields P.td _ hFi, ← hcan]
  have hfreeE : ∀ i ∈ List.range P.num_slots, get_slot P.header i = false →
      P.tuples.getD i (Tuple.new [] P.td) = Tuple.new [] P.td := by
    intro i hi hfree
    exact (hK i (List.mem_range.mp hi)).2 hfree
  have hdecE : decodeSlots P.get_page_data P.header P.header_size
      P.td.get_size P.td (List.range P.num_slots) = some P.tuples := by
    rw [decodeSlots_encode P.get_page_data P.header P.header_size
      P.td.get_size P.td P.tuples (Tuple.new [] P.td)
      (List.range P.num_slots) hbE hoccE hfreeE]
    rw [show List.range P.num_slots = List.range P.tuples.length from
      by rw [hlenP], map_getD_range]
  have hEtake : P.get_page_data.take P.header_size = P.header := by
    rw [hE_eq, ← hhl, List.take_left]
  have hdecE' : decodeSlots P.get_page_data
      (P.get_page_data.take ((PAGE_SIZE * 8 / (P.td.get_size * 8 + 1) + 7) / 8))
      ((PAGE_SIZE * 8 / (P.td.get_size * 8 + 1) + 7) / 8) P.td.get_size P.td
      (List.range (PAGE_SIZE * 8 / (P.td.get_size * 8 + 1)))
      = some P.tuples := by
    rw [← hhszF, ← hnsP, hEtake]
    exact hdecE
  have hszle : P.header_size ≤ PAGE_SIZE :=
    Nat.le_trans (Nat.le_add_right _ _) hars
  have hnot : ¬ P.get_page_data.length
      < (PAGE_SIZE * 8 / (P.td.get_size * 8 + 1) + 7) / 8 := by
    rw [← hhszF, hE_len]
    exact Nat.not_lt.mpr hszle
  have hfin := HeapPage.new_eval P.pid P.get_page_data P.td P.tuples
    hnot hdecE'
  rw [hfin, ← hhszF, ← hnsP, hEtake, ← hod, ← hdb]

/-- C5 counterexample: the bit-exact round trip fails on a dirtied page.
`decode` always yields a page with `dirtied_by = None` (and `old_data`
reset to zeros), so for the dirty page `pageAd` (`dirtied_by = Some 7`)
no decode of its encoding can return `pageAd` itself. -/
theorem decode_encode_not_identity :
    pageAd.dirtied_by = some 7
    ∧ HeapPage.new pageAd.pid pageAd.get_page_data pageAd.td ≠ some pageAd := by
  refine ⟨rfl, fun h => ?_⟩
  obtain ⟨-, -, hPs⟩ := HeapPage.new_inv _ _ _ _ h
  have h1 : pageAd.dirtied_by = none := by rw [hPs]
  rw [show pageAd.dirtied_by = some 7 from rfl] at h1
  exact Option.noConfusion h1

/-- Witness for C5: the decoded all-zero page of `td8` round-trips. -/
theorem decode_encode_roundtrip_witness :
    HeapPage.new ⟨1, 0⟩ (List.replicate PAGE_SIZE 0) td8 = some pageZ
    ∧ HeapPage.new pageZ.pid pageZ.get_page_data pageZ.td = some pageZ := by
  refine ⟨decode_zeros_td8, ?_⟩
  refine decode_encode_roundtrip ⟨1, 0⟩ (List.replicate PAGE_SIZE 0) td8 pageZ
    decode_zeros_td8 ?_ ?_
  · intro b hbm
    rw [List.eq_of_mem_replicate hbm]
    decide
  · intro t ht f hf sf hsf
    rw [show pageZ.tuples = [Tuple.new [] td8] from rfl] at ht
    rw [List.mem_singleton.mp ht] at hf
    exact absurd hf (List.not_mem_nil f)

theorem commit_transaction_spec_witness :
    BufferPool.commit_transaction sysE 0 = some sysE
    ∧ get_locked_pages sysE.locks 0 = [] := by
  have hc : BufferPool.commit_transaction sysE 0 = some sysE := rfl
  refine ⟨hc, ?_⟩
  obtain ⟨h1, -, -⟩ := commit_transaction_spec sysE sysE 0 hc
    (fun q page h => Option.noConfusion h)
    (fun q page h => Option.noConfusion h)
    (fun q page h _ => Option.noConfusion h)
  exact h1

end RusticDb
